import Mathlib

/-!
# Chain of responsibility: the e-mail pipeline of `pipeline2.cpp`

A shallow embedding of the `Worker` hierarchy (`Reader`, `Filter`, `Copier`,
`Sender`), of `PipelineBuilder` and of the `TestSanity` scenario, followed by
theorems about them.

Modelling decisions.
* `std::string` is a list of characters (`Str`).
* The streams a stage refers to (`istream&`, `ostream&`) live in a `World`;
  a stage holds the index of its stream.  Input streams and output streams
  are distinct objects.
* `unique_ptr<Worker>` is `Option Worker`; the null pointer is `none`.
* `std::getline` and `operator<<` are library code; they are modelled after
  the C++ standard (`getline`, `Outs.put`).
* Dereferencing a null `unique_ptr` or an iterator outside its vector is
  undefined behaviour; the model reports it as a `Fault`.
-/

/-- The type `std::string`. -/
abbrev Str := List Char

/-- The record `struct Email` (fields `from`, `to`, `body`). -/
structure Email where
  from_ : Str
  to_ : Str
  body : Str
deriving DecidableEq

/-! ## Streams -/

/-- An `istream` over a string buffer: the unread characters and the state
bits `eofbit` and `failbit`. -/
structure IStream where
  buf : Str
  eofbit : Bool
  failbit : Bool
deriving DecidableEq

/-- A freshly constructed `istringstream(text)`. -/
def IStream.ofString (text : Str) : IStream := ⟨text, false, false⟩

/-- The test `good()`: no state bit is set. -/
def IStream.good (s : IStream) : Bool := !s.eofbit && !s.failbit

/-- The conversion of a stream to `bool`, that is `!fail()`. -/
def IStream.toBool (s : IStream) : Bool := !s.failbit

/-- The library function `std::getline(is, str)`.  When the stream is not
`good()` the sentry fails: `failbit` is set and `str` is left as it was.
Otherwise `str` is erased and characters are extracted up to and including
the first newline (which is not stored); reaching the end of the buffer sets
`eofbit`, and extracting no character at all sets `failbit`. -/
def getline (s : IStream) (str : Str) : IStream × Str :=
  if s.good then
    match s.buf.span (fun c => c != '\n') with
    | (line, _ :: rest) => (⟨rest, false, false⟩, line)
    | (line, []) => (⟨[], true, line.isEmpty⟩, line)
  else
    (⟨s.buf, s.eofbit, true⟩, str)

/-- The contents of the output streams, by stream index. -/
abbrev Outs := Nat → Str

/-- The insertion `out << x` on the output stream `o`. -/
def Outs.put (s : Outs) (o : Nat) (x : Str) : Outs :=
  Function.update s o (s o ++ x)

/-- The streams of the program: input streams and output streams. -/
structure World where
  ins : Nat → IStream
  outs : Outs

/-! ## Workers -/

/-- The dynamic type of a `Worker` together with the members of that class:
the plain base class, `Reader` (`input_`), `Filter` (`func_`), `Copier`
(`to_`) and `Sender` (`out_`). -/
inductive Kind where
  | base
  | reader (input_ : Nat)
  | filter (func_ : Email → Bool)
  | copier (to_ : Str)
  | sender (out_ : Nat)

/-- A `Worker` object: its dynamic type and the member `next_`. -/
inductive Worker where
  | mk (kind : Kind) (next_ : Option Worker)

/-- The dynamic type of a worker. -/
def Worker.kind : Worker → Kind
  | .mk k _ => k

/-- The member `next_`. -/
def Worker.next_ : Worker → Option Worker
  | .mk _ n => n

/-- The method `Worker::SetNext`. -/
def Worker.SetNext : Worker → Option Worker → Worker
  | .mk k _, next => .mk k next

/-- The method `Sender::Process`: three insertions of a field and a newline. -/
def Sender.Process (out_ : Nat) (email : Email) (s : Outs) : Outs :=
  (((((s.put out_ email.from_).put out_ ['\n']).put out_ email.to_).put out_ ['\n']).put
    out_ email.body).put out_ ['\n']

mutual
/-- The base method `Worker::Process`, on the member `next_`: forward to the
successor when there is one. -/
def Worker.Process : Option Worker → Email → Outs → Outs
  | some next, email, s => Process next email s
  | none, _, s => s
/-- The virtual call `w->Process(email)`, dispatched on the dynamic type. -/
def Process : Worker → Email → Outs → Outs
  | .mk .base next_, email, s => Worker.Process next_ email s
  | .mk (.reader _) next_, email, s => Worker.Process next_ email s
  | .mk (.filter func_) next_, email, s =>
    if func_ email then Worker.Process next_ email s else s
  | .mk (.copier to_) next_, email, s =>
    let s1 := Worker.Process next_ email s
    if to_ ≠ email.to_ then Worker.Process next_ ⟨email.from_, to_, email.body⟩ s1 else s1
  | .mk (.sender out_) _, email, s => Sender.Process out_ email s
end

/-- The loop of `Reader::Run`, with the locals `from`, `to`, `body` and a
bound on the number of iterations; `none` when the bound is used up. -/
def Reader.loop (next_ : Option Worker) :
    Nat → Str → Str → Str → IStream → Outs → Option (IStream × Outs)
  | 0, _, _, _, _, _ => none
  | fuel + 1, from_, to_, body, input, s =>
    let r1 := getline input from_
    if r1.1.toBool then
      let r2 := getline r1.1 to_
      let r3 := getline r2.1 body
      Reader.loop next_ fuel r1.2 r2.2 r3.2 r3.1
        (Worker.Process next_ ⟨r1.2, r2.2, r3.2⟩ s)
    else
      some (r1.1, s)

/-- What a call can end in other than a return: the exception
`logic_error`, or undefined behaviour, namely the dereference of a null
pointer or of an iterator outside the vector. -/
inductive Fault where
  | logic_error (what : String)
  | null_deref
  | out_of_range
deriving DecidableEq

/-- The result of a call of `Run`: the exception raised, if any, and the
streams afterwards. -/
structure Outcome where
  raised : Option Fault
  world : World

/-- The virtual call `w->Run()`.  `Reader::Run` runs its loop, every other
class inherits `Worker::Run`, which throws.  Each successful read of a sender
line extracts a character, so the loop is given one iteration more than there
are unread characters; `none` would mean that this bound was used up. -/
def Run : Worker → World → Option Outcome
  | .mk (.reader input_) next_, W =>
    (Reader.loop next_ ((W.ins input_).buf.length + 1) [] [] [] (W.ins input_) W.outs).map
      fun r => ⟨none, ⟨Function.update W.ins input_ r.1, r.2⟩⟩
  | .mk _ _, W => some ⟨some (.logic_error "Unimplemented"), W⟩

/-! ## The builder -/

/-- The class `PipelineBuilder`: the vector `workers` of owning pointers. -/
structure PipelineBuilder where
  workers : List (Option Worker)

/-- The constructor `PipelineBuilder(in)`. -/
def PipelineBuilder.new (input : Nat) : PipelineBuilder :=
  ⟨[some (.mk (.reader input) none)]⟩

/-- The method `FilterBy`. -/
def PipelineBuilder.FilterBy (b : PipelineBuilder) (filter : Email → Bool) : PipelineBuilder :=
  ⟨b.workers ++ [some (.mk (.filter filter) none)]⟩

/-- The method `CopyTo`. -/
def PipelineBuilder.CopyTo (b : PipelineBuilder) (recipient : Str) : PipelineBuilder :=
  ⟨b.workers ++ [some (.mk (.copier recipient) none)]⟩

/-- The method `Send`. -/
def PipelineBuilder.Send (b : PipelineBuilder) (out : Nat) : PipelineBuilder :=
  ⟨b.workers ++ [some (.mk (.sender out) none)]⟩

/-- The loop of `Build`.  With `i + 1` steps left the reverse iterator `it`
designates element `i + 1` and `next(it)` element `i`: element `i` gets
element `i + 1` as successor, and element `i + 1` is left null by the move. -/
def PipelineBuilder.link : Nat → List (Option Worker) → Except Fault (List (Option Worker))
  | 0, ws => .ok ws
  | i + 1, ws =>
    match ws[i]?, ws[i + 1]? with
    | some (some w), some p =>
      PipelineBuilder.link i ((ws.set i (some (w.SetNext p))).set (i + 1) none)
    | _, _ => .error .null_deref

/-- The method `Build`: the linking loop from the last element down to the
second, then the first element is moved out.  Returns the pointer handed to
the caller and the builder as it is left.  On an empty vector `prev(rend)`
and `*begin` leave the vector, which is undefined behaviour. -/
def PipelineBuilder.Build (b : PipelineBuilder) :
    Except Fault (Option Worker × PipelineBuilder) :=
  match b.workers with
  | [] => .error .out_of_range
  | _ :: _ =>
    match PipelineBuilder.link (b.workers.length - 1) b.workers with
    | .ok ws => .ok ((ws.head?).join, ⟨ws.set 0 none⟩)
    | .error f => .error f

/-! ## The text format -/

/-- The three lines of a record, each ended by a newline. -/
def Email.lines (e : Email) : Str :=
  e.from_ ++ '\n' :: (e.to_ ++ '\n' :: (e.body ++ ['\n']))

/-- The text of a sequence of records. -/
def serialize : List Email → Str
  | [] => []
  | e :: es => e.lines ++ serialize es

/-- A field that fits on one line. -/
def OneLine (l : Str) : Prop := '\n' ∉ l

instance (l : Str) : Decidable (OneLine l) := by unfold OneLine; infer_instance

/-- Records whose fields contain no newline. -/
def WellFormed (recs : List Email) : Prop :=
  ∀ r ∈ recs, OneLine r.from_ ∧ OneLine r.to_ ∧ OneLine r.body

instance (recs : List Email) : Decidable (WellFormed recs) := by
  unfold WellFormed; infer_instance

/-- The records a stage hands on are delivered to its successor one after
the other. -/
def deliver (next_ : Option Worker) (recs : List Email) (s : Outs) : Outs :=
  recs.foldl (fun acc r => Worker.Process next_ r acc) s

/-! ## The scenario `TestSanity` -/

/-- The text `input` of `TestSanity`. -/
def TestSanity.input : Str :=
  ("erich@example.com\n" ++ "richard@example.com\n" ++ "Hello there\n" ++
   "erich@example.com\n" ++ "ralph@example.com\n" ++
   "Are you sure you pressed the right button?\n" ++
   "ralph@example.com\n" ++ "erich@example.com\n" ++
   "I do not make mistakes of that kind\n").toList

/-- The text `expectedOutput` of `TestSanity`. -/
def TestSanity.expectedOutput : Str :=
  ("erich@example.com\n" ++ "richard@example.com\n" ++ "Hello there\n" ++
   "erich@example.com\n" ++ "ralph@example.com\n" ++
   "Are you sure you pressed the right button?\n" ++
   "erich@example.com\n" ++ "richard@example.com\n" ++
   "Are you sure you pressed the right button?\n").toList

/-- The predicate of `TestSanity`: the sender is `erich@example.com`. -/
def TestSanity.pred (email : Email) : Bool :=
  email.from_ == "erich@example.com".toList

/-- The streams of `TestSanity`: `inStream` is input stream 0 and holds
`input`, `outStream` is output stream 0 and is empty. -/
def TestSanity.world : World :=
  ⟨fun _ => IStream.ofString TestSanity.input, fun _ => []⟩

/-- The body of `TestSanity` up to the assertion: the contents of `outStream`
after the run (`none` when the pipeline is null or the run does not end). -/
def TestSanity.outStream : Option Str :=
  match ((((PipelineBuilder.new 0).FilterBy TestSanity.pred).CopyTo
      "richard@example.com".toList).Send 0).Build with
  | .ok (some pipeline, _) => (Run pipeline TestSanity.world).map fun r => r.world.outs 0
  | _ => none

/-! ## Auxiliary definitions for the statements -/

/-- The workers of kinds `ks`, linked in that order behind the pointer `p`. -/
def chainFrom (p : Option Worker) : List Kind → Option Worker
  | [] => p
  | k :: ks => some (.mk k (chainFrom p ks))

/-- The kinds met from a worker by following `next_`, the worker included. -/
def Worker.chain : Worker → List Kind
  | .mk k none => [k]
  | .mk k (some n) => k :: n.chain

/-- The stages behind the pointer of `p`, relinked one behind the other. -/
def relink (p : Option Worker) : List Worker → Option Worker
  | [] => p
  | w :: ws => some (w.SetNext (relink p ws))

/-- The stages of a vector linked one behind the other; the last one keeps
the successor it has. -/
def linked : List Worker → Option Worker
  | [] => none
  | [w] => some w
  | w :: v :: ws => some (w.SetNext (linked (v :: ws)))

/-- The records read by the loop of `Reader::Run`, with the stream as the loop
leaves it. -/
def Reader.scan : Nat → Str → Str → Str → IStream → Option (IStream × List Email)
  | 0, _, _, _, _ => none
  | fuel + 1, from_, to_, body, input =>
    let r1 := getline input from_
    if r1.1.toBool then
      let r2 := getline r1.1 to_
      let r3 := getline r2.1 body
      (Reader.scan fuel r1.2 r2.2 r3.2 r3.1).map
        fun r => (r.1, ⟨r1.2, r2.2, r3.2⟩ :: r.2)
    else
      some (r1.1, [])

/-- The text the chain filter, copier, sink has to write for the records
`recs`, in the words of the specification: nothing for a record that fails
the predicate, otherwise the record, followed by its copy to the target when
its recipient differs from the target. -/
def Spec.endToEnd (p : Email → Bool) (t : Str) : List Email → Str
  | [] => []
  | R :: rs =>
    (if p R then
      R.lines ++ (if R.to_ ≠ t then (Email.mk R.from_ t R.body).lines else [])
    else []) ++ Spec.endToEnd p t rs

/-- The state bits of a stream over a buffer are consistent: `eofbit` is set
only when the buffer is used up, `failbit` only together with `eofbit`. -/
def IStream.Consistent (s : IStream) : Prop :=
  (s.eofbit = true → s.buf = []) ∧ (s.failbit = true → s.eofbit = true)

/-- A call of one of the appending methods of the builder. -/
inductive Call where
  | FilterBy (filter : Email → Bool)
  | CopyTo (recipient : Str)
  | Send (out : Nat)

/-- The stage a call appends. -/
def Call.kind : Call → Kind
  | .FilterBy f => .filter f
  | .CopyTo t => .copier t
  | .Send o => .sender o

/-- The call is a `Send`. -/
def Call.isSend : Call → Bool
  | .Send _ => true
  | _ => false

/-- The builder after one call. -/
def PipelineBuilder.call (b : PipelineBuilder) : Call → PipelineBuilder
  | .FilterBy f => b.FilterBy f
  | .CopyTo t => b.CopyTo t
  | .Send o => b.Send o

/-- The builder after a sequence of calls. -/
def PipelineBuilder.calls (b : PipelineBuilder) (cs : List Call) : PipelineBuilder :=
  cs.foldl PipelineBuilder.call b

/-- The dynamic type is `Reader`. -/
def Kind.isReader : Kind → Bool
  | .reader _ => true
  | _ => false

/-- The contents of the output streams after `pipeline` has run on the text
`text`, all output streams being empty before the run. -/
def outputOf (pipeline : Worker) (text : Str) : Option Outs :=
  (Run pipeline ⟨fun _ => IStream.ofString text, fun _ => []⟩).map fun r => r.world.outs

/-- The dynamic type is `Sender`. -/
def Kind.isSender : Kind → Bool
  | .sender _ => true
  | _ => false

/-- The text of a sequence of lines, each ended by a newline. -/
def unlines : List Str → Str
  | [] => []
  | l :: ls => l ++ '\n' :: unlines ls

/-- The lines of the text `unlines ls ++ tail`: the lines `ls` and, when it is
not empty, the last line `tail`, which has no newline behind it. -/
def allLines (ls : List Str) (tail : Str) : List Str :=
  ls ++ (if tail.isEmpty then [] else [tail])

/-- The records `Reader::Run` makes of the lines `ls` followed by the
unfinished line `tail`, the locals `to` and `body` holding `to_` and `body`
before: three lines make a record, and a last group of one or two lines makes
a record too, in which a line that is not there is read as what is left of
the text (`tail`) as long as the stream is good, and afterwards keeps the
value the local had. -/
def groups (tail : Str) : Str → Str → List Str → List Email
  | _, _, a :: b :: c :: rest => ⟨a, b, c⟩ :: groups tail b c rest
  | _, _, [a, b] => [⟨a, b, tail⟩]
  | _, body, [a] => [⟨a, tail, body⟩]
  | to_, body, [] => if tail.isEmpty then [] else [⟨tail, to_, body⟩]

/-- The three records of the input of `TestSanity`. -/
def TestSanity.records : List Email :=
  [⟨"erich@example.com".toList, "richard@example.com".toList, "Hello there".toList⟩,
   ⟨"erich@example.com".toList, "ralph@example.com".toList,
    "Are you sure you pressed the right button?".toList⟩,
   ⟨"ralph@example.com".toList, "erich@example.com".toList,
    "I do not make mistakes of that kind".toList⟩]

/-- Two short records, for instances of the theorems. -/
def Sample.records : List Email := [⟨['a'], ['b'], ['c']⟩, ⟨['d'], ['b'], []⟩]

/-- Streams for `Sample.records`: their text on every input stream, every
output stream empty. -/
def Sample.world : World :=
  ⟨fun _ => IStream.ofString (serialize Sample.records), fun _ => []⟩

/-- Streams for the text of four lines followed by an unfinished fifth. -/
def Sample.ragged : World :=
  ⟨fun _ => IStream.ofString (unlines [['a'], ['b'], ['c'], ['d']] ++ ['e']), fun _ => []⟩

/-- The call is a `CopyTo`. -/
def Call.isCopyTo : Call → Bool
  | .CopyTo _ => true
  | _ => false

/-- The records that the stages `ks`, none of them a sink, hand to what
follows them when the first of them processes `e`, in the order of the calls
of `Worker::Process`: a filter hands on the record or nothing, a copier hands
on the record and then, when the recipient differs from its target, the copy;
a sink hands on nothing. -/
def arrivals : List Kind → Email → List Email
  | [], e => [e]
  | .base :: ks, e => arrivals ks e
  | .reader _ :: ks, e => arrivals ks e
  | .filter func_ :: ks, e => if func_ e then arrivals ks e else []
  | .copier to_ :: ks, e =>
    arrivals ks e ++ (if to_ ≠ e.to_ then arrivals ks ⟨e.from_, to_, e.body⟩ else [])
  | .sender _ :: _, _ => []

/-- The builder of the instances: the source, a filter and a copier. -/
def Sample.calls : List Call := [Call.FilterBy fun e => e.from_ == ['a'], Call.CopyTo ['x']]

/-- The dynamic type is `Copier`. -/
def Kind.isCopier : Kind → Bool
  | .copier _ => true
  | _ => false
/-! ## Chains -/

theorem relink_append (p : Option Worker) (ws : List Worker) (w : Worker) :
    relink p (ws ++ [w]) = relink (some (w.SetNext p)) ws := by
  induction ws with
  | nil => rfl
  | cons v vs ih => simp [relink, ih]

theorem getElem?_length_append {α : Type} (l : List α) (a : α) (rest : List α) :
    (l ++ a :: rest)[l.length]? = some a := by
  induction l <;> simp_all

theorem getElem?_length_succ_append {α : Type} (l : List α) (a b : α) (rest : List α) :
    (l ++ a :: b :: rest)[l.length + 1]? = some b := by
  induction l <;> simp_all

theorem set_length_append {α : Type} (l : List α) (a x : α) (rest : List α) :
    (l ++ a :: rest).set l.length x = l ++ x :: rest := by
  induction l <;> simp_all

theorem set_length_succ_append {α : Type} (l : List α) (a b x : α) (rest : List α) :
    (l ++ a :: b :: rest).set (l.length + 1) x = l ++ a :: x :: rest := by
  induction l <;> simp_all

theorem link_spec (pre : List Worker) :
    ∀ (p : Option Worker) (suffix : List (Option Worker)),
      PipelineBuilder.link pre.length (pre.map some ++ p :: suffix)
        = .ok (relink p pre :: (List.replicate pre.length none ++ suffix)) := by
  induction pre using List.reverseRecOn with
  | nil => intro p suffix; rfl
  | append_singleton pre w ih =>
    intro p suffix
    have hlen : (pre ++ [w]).length = (pre.map some).length + 1 := by simp
    have hshape : List.map some (pre ++ [w]) ++ p :: suffix
        = pre.map some ++ some w :: p :: suffix := by simp
    rw [hlen, hshape, PipelineBuilder.link, getElem?_length_append,
      getElem?_length_succ_append]
    simp only [set_length_append, set_length_succ_append]
    have hlen2 : (pre.map some).length = pre.length := by simp
    rw [hlen2, ih, relink_append]
    simp [List.replicate_succ', List.append_assoc]

theorem linked_append (pre : List Worker) (w : Worker) :
    linked (pre ++ [w]) = relink (some w) pre := by
  induction pre with
  | nil => rfl
  | cons v vs ih =>
    cases vs with
    | nil => rfl
    | cons u us =>
      have e : (v :: u :: us) ++ [w] = v :: u :: (us ++ [w]) := rfl
      have e2 : (u :: us) ++ [w] = u :: (us ++ [w]) := rfl
      rw [e, linked, ← e2, ih]; rfl

theorem Build_spec (s0 : Worker) (rest : List Worker) :
    PipelineBuilder.Build ⟨(s0 :: rest).map some⟩
      = .ok (linked (s0 :: rest), ⟨List.replicate (rest.length + 1) none⟩) := by
  cases rest using List.reverseRecOn with
  | nil => simp [PipelineBuilder.Build, PipelineBuilder.link, linked]
  | append_singleton pre w =>
    have h := link_spec (s0 :: pre) (some w) []
    have hshape : List.map some (s0 :: (pre ++ [w])) = List.map some (s0 :: pre) ++ [some w] := by
      simp
    have hlen : (List.map some (s0 :: pre) ++ [some w]).length - 1 = (s0 :: pre).length := by
      simp
    rw [PipelineBuilder.Build, hshape]
    simp only [List.map_cons, List.cons_append] at hlen h ⊢
    simp only [hlen, h]
    have e : s0 :: (pre ++ [w]) = (s0 :: pre) ++ [w] := rfl
    rw [e, linked_append]
    simp [relink, List.replicate_succ]

theorem chain_SetNext_some (w n : Worker) :
    (w.SetNext (some n)).chain = w.kind :: n.chain := by
  cases w; rfl

theorem chain_of_next_none (w : Worker) (h : w.next_ = none) : w.chain = [w.kind] := by
  cases w with
  | mk k n => cases n with
    | none => rfl
    | some m => simp [Worker.next_] at h

theorem kind_SetNext (w : Worker) (p : Option Worker) : (w.SetNext p).kind = w.kind := by
  cases w; rfl

theorem linked_chain (s0 : Worker) (rest : List Worker)
    (hfresh : ∀ s ∈ s0 :: rest, s.next_ = none) :
    ∃ head, linked (s0 :: rest) = some head ∧ head.kind = s0.kind ∧
      head.chain = (s0 :: rest).map Worker.kind := by
  induction rest generalizing s0 with
  | nil => exact ⟨s0, rfl, rfl, by simpa using chain_of_next_none s0 (hfresh s0 (by simp))⟩
  | cons v vs ih =>
    obtain ⟨h2, e, _, hc⟩ := ih v (fun s hs => hfresh s (List.mem_cons_of_mem _ hs))
    refine ⟨s0.SetNext (some h2), ?_, kind_SetNext _ _, ?_⟩
    · rw [linked, e]
    · rw [chain_SetNext_some, hc]; rfl

/-- C2: `Build()` links the stages in call order.  For a builder holding the
stages `s0, s1, ..., sn` (as the builder creates them, without successor),
`Build()` returns a non-null head of the kind of `s0`; following `next_` from
it meets exactly the kinds of `s0, s1, ..., sn` in that order and then ends;
for `n = 0` the head is `s0` itself, without successor; the builder is left
with null pointers only. -/
theorem Build_links_in_call_order (s0 : Worker) (rest : List Worker)
    (hfresh : ∀ s ∈ s0 :: rest, s.next_ = none) :
    ∃ head, PipelineBuilder.Build ⟨(s0 :: rest).map some⟩
        = .ok (some head, ⟨List.replicate (rest.length + 1) none⟩) ∧
      head.kind = s0.kind ∧
      head.chain = (s0 :: rest).map Worker.kind ∧
      (rest = [] → head = s0 ∧ head.next_ = none) := by
  obtain ⟨head, e, hk, hc⟩ := linked_chain s0 rest hfresh
  refine ⟨head, ?_, hk, hc, ?_⟩
  · rw [Build_spec, e]
  · intro hr
    subst hr
    have : head = s0 := by simpa [linked] using e.symm
    subst this
    exact ⟨rfl, hfresh _ (by simp)⟩

theorem Build_links_in_call_order_witness :
    ∃ head, PipelineBuilder.Build ⟨[Worker.mk (.reader 0) none, .mk (.copier ['a']) none,
          .mk (.sender 1) none].map some⟩
        = .ok (some head, ⟨List.replicate 3 none⟩) ∧
      head.kind = Kind.reader 0 ∧
      head.chain = [Kind.reader 0, .copier ['a'], .sender 1] ∧
      (([Worker.mk (.copier ['a']) none, .mk (.sender 1) none] : List Worker) = [] →
        head = Worker.mk (.reader 0) none ∧ head.next_ = none) :=
  Build_links_in_call_order (.mk (.reader 0) none)
    [.mk (.copier ['a']) none, .mk (.sender 1) none]
    (by intro s hs; simp at hs; rcases hs with h | h | h <;> subst h <;> rfl)

/-! ## Output streams -/

theorem Outs.put_nil (s : Outs) (o : Nat) : s.put o [] = s := by
  funext x
  by_cases h : x = o
  · subst h; simp [Outs.put]
  · simp [Outs.put, Function.update_noteq h]

theorem Outs.put_put (s : Outs) (o : Nat) (x y : Str) :
    (s.put o x).put o y = s.put o (x ++ y) := by
  funext z
  by_cases h : z = o
  · subst h; simp [Outs.put]
  · simp [Outs.put, Function.update_noteq h]

theorem Outs.put_same (s : Outs) (o : Nat) (x : Str) : s.put o x o = s o ++ x := by
  simp [Outs.put]

theorem Outs.put_other (s : Outs) (o o' : Nat) (x : Str) (h : o' ≠ o) :
    s.put o x o' = s o' := by
  simp [Outs.put, Function.update_noteq h]

theorem Sender.Process_eq (out_ : Nat) (email : Email) (s : Outs) :
    Sender.Process out_ email s = s.put out_ email.lines := by
  simp [Sender.Process, Outs.put_put, Email.lines]

/-! ## Delivery -/

@[simp] theorem deliver_nil (next_ : Option Worker) (s : Outs) : deliver next_ [] s = s := rfl

@[simp] theorem deliver_cons (next_ : Option Worker) (r : Email) (rs : List Email) (s : Outs) :
    deliver next_ (r :: rs) s = deliver next_ rs (Worker.Process next_ r s) := rfl

theorem deliver_append (next_ : Option Worker) (xs ys : List Email) (s : Outs) :
    deliver next_ (xs ++ ys) s = deliver next_ ys (deliver next_ xs s) := by
  simp [deliver, List.foldl_append]

/-! ## Reading -/

theorem Reader.loop_eq_scan (next_ : Option Worker) (fuel : Nat) :
    ∀ (from_ to_ body : Str) (input : IStream) (s : Outs),
      Reader.loop next_ fuel from_ to_ body input s
        = (Reader.scan fuel from_ to_ body input).map fun r => (r.1, deliver next_ r.2 s) := by
  induction fuel with
  | zero => intros; rfl
  | succ n ih =>
    intro from_ to_ body input s
    simp only [Reader.loop, Reader.scan]
    split
    · rw [ih]; simp [Option.map_map, Function.comp_def]
    · rfl

theorem span_oneLine (l : Str) (rest : Str) (h : OneLine l) :
    (l ++ '\n' :: rest).span (fun c => c != '\n') = (l, '\n' :: rest) := by
  rw [List.span_eq_take_drop]
  induction l with
  | nil => simp
  | cons c cs ih =>
    have hc : c ≠ '\n' := fun e => h (by simp [e])
    have hcs : OneLine cs := fun m => h (List.mem_cons_of_mem _ m)
    have := ih hcs
    simp only [Prod.mk.injEq] at this
    simp [hc, this.1, this.2]

theorem span_noLine (l : Str) (h : OneLine l) :
    l.span (fun c => c != '\n') = (l, []) := by
  rw [List.span_eq_take_drop]
  induction l with
  | nil => simp
  | cons c cs ih =>
    have hc : c ≠ '\n' := fun e => h (by simp [e])
    have hcs : OneLine cs := fun m => h (List.mem_cons_of_mem _ m)
    have := ih hcs
    simp only [Prod.mk.injEq] at this
    simp [hc, this.1, this.2]

theorem getline_line (l rest str : Str) (h : OneLine l) :
    getline ⟨l ++ '\n' :: rest, false, false⟩ str = (⟨rest, false, false⟩, l) := by
  simp only [getline, IStream.good, span_oneLine l rest h]
  rfl

theorem getline_end (str : Str) :
    getline ⟨[], false, false⟩ str = (⟨[], true, true⟩, []) := by
  rfl

theorem getline_not_good (s : IStream) (str : Str) (h : s.good = false) :
    getline s str = (⟨s.buf, s.eofbit, true⟩, str) := by
  simp [getline, h]

theorem scan_serialize (recs : List Email) (hwf : WellFormed recs) :
    ∀ (fuel : Nat) (from_ to_ body : Str), (serialize recs).length < fuel →
      Reader.scan fuel from_ to_ body ⟨serialize recs, false, false⟩
        = some (⟨[], true, true⟩, recs) := by
  induction recs with
  | nil =>
    intro fuel from_ to_ body hf
    cases fuel with
    | zero => simp at hf
    | succ n => rfl
  | cons r rs ih =>
    intro fuel from_ to_ body hf
    obtain ⟨h1, h2, h3⟩ := hwf r (by simp)
    have hrs : WellFormed rs := fun x hx => hwf x (List.mem_cons_of_mem _ hx)
    cases fuel with
    | zero => simp at hf
    | succ n =>
      have hlen : (serialize rs).length < n := by
        simp [serialize, Email.lines] at hf; omega
      have e : serialize (r :: rs)
          = r.from_ ++ '\n' :: (r.to_ ++ '\n' :: (r.body ++ '\n' :: serialize rs)) := by
        simp [serialize, Email.lines]
      rw [e, Reader.scan]
      simp only [getline_line _ _ _ h1, getline_line _ _ _ h2, getline_line _ _ _ h3,
        IStream.toBool]
      simp [ih hrs n _ _ _ hlen]

theorem Run_reader_serialize (input_ : Nat) (next_ : Option Worker) (W : World)
    (recs : List Email) (hwf : WellFormed recs)
    (hin : W.ins input_ = IStream.ofString (serialize recs)) :
    Run (.mk (.reader input_) next_) W
      = some ⟨none, ⟨Function.update W.ins input_ ⟨[], true, true⟩,
          deliver next_ recs W.outs⟩⟩ := by
  simp only [Run, Reader.loop_eq_scan, hin, IStream.ofString]
  rw [scan_serialize recs hwf _ _ _ _ (Nat.lt_succ_self _)]
  rfl

theorem deliver_filter_copier_sender (p : Email → Bool) (t : Str) (o : Nat)
    (recs : List Email) :
    ∀ s : Outs,
      deliver (some (.mk (.filter p) (some (.mk (.copier t) (some (.mk (.sender o) none))))))
        recs s = s.put o (Spec.endToEnd p t recs) := by
  induction recs with
  | nil => intro s; simp [Spec.endToEnd, Outs.put_nil]
  | cons R rs ih =>
    intro s
    rw [deliver_cons, ih]
    simp only [Worker.Process, Process, Sender.Process_eq, Spec.endToEnd]
    by_cases hp : p R = true
    · by_cases ht : t = R.to_
      · have ht2 : ¬ (R.to_ ≠ t) := fun h => h ht.symm
        simp [hp, ht, Outs.put_put]
      · have ht2 : R.to_ ≠ t := fun h => ht h.symm
        simp [hp, ht, ht2, Outs.put_put]
    · simp [hp, Outs.put_put]

set_option maxRecDepth 100000 in
/-- C1: the chain built by `PipelineBuilder(in).FilterBy(p).CopyTo(t).Send(out)`
and run on the text of well-formed records appends to `out`, record by record
in input order, nothing when `p` fails and otherwise the record followed, when
its recipient differs from `t`, by its copy to `t`; nothing else is written,
and the run ends without an exception.  On the input of `TestSanity` the
output stream holds exactly `expectedOutput`. -/
theorem pipeline_end_to_end :
    (∀ (recs : List Email) (p : Email → Bool) (t : Str) (i o : Nat) (W : World),
      WellFormed recs → W.ins i = IStream.ofString (serialize recs) →
      ∃ pipeline rest,
        ((((PipelineBuilder.new i).FilterBy p).CopyTo t).Send o).Build
          = .ok (some pipeline, rest) ∧
        Run pipeline W = some ⟨none, ⟨Function.update W.ins i ⟨[], true, true⟩,
          W.outs.put o (Spec.endToEnd p t recs)⟩⟩) ∧
    TestSanity.outStream = some TestSanity.expectedOutput := by
  refine ⟨?_, by decide⟩
  intro recs p t i o W hwf hin
  refine ⟨.mk (.reader i) (some (.mk (.filter p) (some (.mk (.copier t)
    (some (.mk (.sender o) none)))))), ⟨[none, none, none, none]⟩, rfl, ?_⟩
  rw [Run_reader_serialize i _ W recs hwf hin, deliver_filter_copier_sender]

theorem split_line (l : Str) :
    OneLine l ∨ ∃ line rest, l = line ++ '\n' :: rest ∧ OneLine line := by
  induction l with
  | nil => left; simp [OneLine]
  | cons c cs ih =>
    by_cases hc : c = '\n'
    · right; exact ⟨[], cs, by simp [hc], by simp [OneLine]⟩
    · rcases ih with h | ⟨line, rest, e, h⟩
      · left
        intro m
        rcases List.mem_cons.mp m with m | m
        · exact hc m.symm
        · exact h m
      · right
        refine ⟨c :: line, rest, by simp [e], ?_⟩
        intro m
        rcases List.mem_cons.mp m with m | m
        · exact hc m.symm
        · exact h m

theorem getline_last (l str : Str) (h : OneLine l) :
    getline ⟨l, false, false⟩ str = (⟨[], true, l.isEmpty⟩, l) := by
  simp only [getline, IStream.good, span_noLine l h]
  rfl

theorem good_eq (s : IStream) (h : s.good = true) : s = ⟨s.buf, false, false⟩ := by
  cases s with
  | mk b e f => simp [IStream.good] at h; simp [h]

/-- The three ways a call of `getline` can go. -/
theorem getline_cases (s : IStream) (str : Str) :
    (s.good = false ∧ getline s str = (⟨s.buf, s.eofbit, true⟩, str)) ∨
    (s.good = true ∧ ∃ line rest, s.buf = line ++ '\n' :: rest ∧ OneLine line ∧
      getline s str = (⟨rest, false, false⟩, line)) ∨
    (s.good = true ∧ OneLine s.buf ∧ getline s str = (⟨[], true, s.buf.isEmpty⟩, s.buf)) := by
  by_cases hg : s.good = true
  · right
    rcases split_line s.buf with h | ⟨line, rest, e, h⟩
    · right
      refine ⟨hg, h, ?_⟩
      rw [good_eq s hg]; exact getline_last _ _ h
    · left
      refine ⟨hg, line, rest, e, h, ?_⟩
      rw [good_eq s hg]; simp only [e]; exact getline_line _ _ _ h
  · left
    have hg2 : s.good = false := by simpa using hg
    exact ⟨hg2, getline_not_good s str hg2⟩

theorem getline_consistent (s : IStream) (str : Str) (h : s.Consistent) :
    (getline s str).1.Consistent := by
  rcases getline_cases s str with ⟨hg, e⟩ | ⟨hg, line, rest, eb, hl, e⟩ | ⟨hg, hl, e⟩
  · rw [e]
    refine ⟨h.1, fun _ => ?_⟩
    cases he : s.eofbit with
    | true => rfl
    | false =>
      cases hf : s.failbit with
      | true => simpa [he] using h.2 hf
      | false => simp [IStream.good, he, hf] at hg
  · rw [e]; exact ⟨by simp, by simp⟩
  · rw [e]; exact ⟨by simp, by simp⟩

theorem getline_length_le (s : IStream) (str : Str) :
    (getline s str).1.buf.length ≤ s.buf.length := by
  rcases getline_cases s str with ⟨hg, e⟩ | ⟨hg, line, rest, eb, hl, e⟩ | ⟨hg, hl, e⟩
  · rw [e]
  · rw [e, eb]; simp; omega
  · rw [e]; simp

theorem getline_progress (s : IStream) (str : Str)
    (hok : (getline s str).1.toBool = true) :
    (getline s str).1.buf.length < s.buf.length := by
  rcases getline_cases s str with ⟨hg, e⟩ | ⟨hg, line, rest, eb, hl, e⟩ | ⟨hg, hl, e⟩
  · rw [e] at hok; simp [IStream.toBool] at hok
  · rw [e, eb]; simp; omega
  · rw [e] at hok ⊢
    simp only [IStream.toBool, Bool.not_eq_true', List.isEmpty_eq_false] at hok
    exact List.length_pos.mpr hok

theorem getline_failed (s : IStream) (str : Str) (h : s.Consistent)
    (hfail : (getline s str).1.toBool = false) :
    (getline s str).1 = ⟨[], true, true⟩ := by
  have hc := getline_consistent s str h
  have hf : (getline s str).1.failbit = true := by simpa [IStream.toBool] using hfail
  have he := hc.2 hf
  have hb := hc.1 he
  cases hs : (getline s str).1 with
  | mk b e f => rw [hs] at hf he hb; simp_all

/-- The loop of `Reader::Run` ends on every input, with the buffer used up
and both state bits set. -/
theorem scan_total (fuel : Nat) :
    ∀ (from_ to_ body : Str) (s : IStream), s.Consistent → s.buf.length < fuel →
      ∃ L, Reader.scan fuel from_ to_ body s = some (⟨[], true, true⟩, L) := by
  induction fuel with
  | zero => intro _ _ _ s _ h; simp at h
  | succ n ih =>
    intro from_ to_ body s hc hlen
    rw [Reader.scan]
    by_cases hok : (getline s from_).1.toBool = true
    · simp only [hok, if_true]
      have c1 := getline_consistent s from_ hc
      have c2 := getline_consistent _ to_ c1
      have c3 := getline_consistent _ body c2
      have l1 := getline_progress s from_ hok
      have l2 := getline_length_le (getline s from_).1 to_
      have l3 := getline_length_le (getline (getline s from_).1 to_).1 body
      obtain ⟨L, e⟩ := ih (getline s from_).2 (getline (getline s from_).1 to_).2
        (getline (getline (getline s from_).1 to_).1 body).2 _ c3 (by omega)
      exact ⟨_, by rw [e]; rfl⟩
    · have hok2 : (getline s from_).1.toBool = false := by simpa using hok
      simp only [hok2]
      exact ⟨[], by simp [getline_failed s from_ hc hok2]⟩

theorem ofString_consistent (text : Str) : (IStream.ofString text).Consistent := by
  simp [IStream.ofString, IStream.Consistent]

/-- The method `Reader::Run` on any text: it ends without an exception, the
input is used up, and some sequence of records has been delivered to the
successor; the sequence does not depend on the successor. -/
theorem Run_reader_total (input_ : Nat) (text : Str) :
    ∃ L : List Email, ∀ (next_ : Option Worker) (W : World),
      W.ins input_ = IStream.ofString text →
      Run (.mk (.reader input_) next_) W
        = some ⟨none, ⟨Function.update W.ins input_ ⟨[], true, true⟩,
            deliver next_ L W.outs⟩⟩ := by
  obtain ⟨L, e⟩ := scan_total (text.length + 1) [] [] [] (IStream.ofString text)
    (ofString_consistent text) (by simp [IStream.ofString])
  refine ⟨L, fun next_ W hin => ?_⟩
  simp only [Run, Reader.loop_eq_scan, hin]
  have hl : (IStream.ofString text).buf.length = text.length := rfl
  rw [hl, e]
  rfl

/-! ## Chains made by the builder -/

theorem calls_workers (cs : List Call) :
    ∀ b : PipelineBuilder,
      (b.calls cs).workers = b.workers ++ cs.map fun c => some (Worker.mk c.kind none) := by
  induction cs with
  | nil => intro b; simp [PipelineBuilder.calls]
  | cons c cs ih =>
    intro b
    have step : (b.call c).workers = b.workers ++ [some (Worker.mk c.kind none)] := by
      cases c <;> rfl
    have unfold : b.calls (c :: cs) = (b.call c).calls cs := rfl
    rw [unfold, ih, step]
    simp

theorem linked_fresh (ks : List Kind) :
    ∀ k : Kind, linked ((k :: ks).map fun k => Worker.mk k none)
      = some (.mk k (chainFrom none ks)) := by
  induction ks with
  | nil => intro k; rfl
  | cons j js ih =>
    intro k
    have e : List.map (fun k => Worker.mk k none) (k :: j :: js)
        = Worker.mk k none :: Worker.mk j none :: js.map fun k => Worker.mk k none := rfl
    have e2 : Worker.mk j none :: List.map (fun k => Worker.mk k none) js
        = List.map (fun k => Worker.mk k none) (j :: js) := rfl
    rw [e, linked, e2, ih]
    rfl

/-- What `Build()` returns for the builder made by the constructor and a
sequence of appending calls. -/
theorem Build_calls (i : Nat) (cs : List Call) :
    ((PipelineBuilder.new i).calls cs).Build
      = .ok (some (.mk (.reader i) (chainFrom none (cs.map Call.kind))),
          ⟨List.replicate (cs.length + 1) none⟩) := by
  have hw : (PipelineBuilder.new i).calls cs
      = ⟨(Worker.mk (.reader i) none :: (cs.map Call.kind).map fun k => Worker.mk k none).map
          some⟩ := by
    have := calls_workers cs (PipelineBuilder.new i)
    cases hb : (PipelineBuilder.new i).calls cs with
    | mk ws =>
      rw [hb] at this
      simp only at this
      rw [this]
      simp [PipelineBuilder.new, Function.comp_def]
  rw [hw, Build_spec]
  have e : Worker.mk (.reader i) none :: List.map (fun k => Worker.mk k none) (cs.map Call.kind)
      = List.map (fun k => Worker.mk k none) (Kind.reader i :: cs.map Call.kind) := rfl
  rw [e, linked_fresh]
  simp

/-- Successors that treat every record alike make `Reader::Run` behave alike. -/
theorem deliver_congr (n1 n2 : Option Worker)
    (h : ∀ e s, Worker.Process n1 e s = Worker.Process n2 e s) (recs : List Email) :
    ∀ s, deliver n1 recs s = deliver n2 recs s := by
  induction recs with
  | nil => intro s; rfl
  | cons r rs ih => intro s; rw [deliver_cons, deliver_cons, h, ih]

theorem Run_reader_congr (i : Nat) (n1 n2 : Option Worker)
    (h : ∀ e s, Worker.Process n1 e s = Worker.Process n2 e s) (W : World) :
    Run (.mk (.reader i) n1) W = Run (.mk (.reader i) n2) W := by
  simp only [Run, Reader.loop_eq_scan]
  congr 1
  cases Reader.scan ((W.ins i).buf.length + 1) [] [] [] (W.ins i) with
  | none => rfl
  | some r => simp [deliver_congr n1 n2 h]

theorem deliver_sender (o : Nat) (next_ : Option Worker) (recs : List Email) :
    ∀ s : Outs, deliver (some (.mk (.sender o) next_)) recs s = s.put o (serialize recs) := by
  induction recs with
  | nil => intro s; simp [serialize, Outs.put_nil]
  | cons R rs ih =>
    intro s
    rw [deliver_cons, ih]
    simp [Worker.Process, Process, Sender.Process_eq, serialize, Outs.put_put]

theorem deliver_filter (p : Email → Bool) (next_ : Option Worker) (recs : List Email) :
    ∀ s : Outs, deliver (some (.mk (.filter p) next_)) recs s
      = deliver next_ (recs.filter p) s := by
  induction recs with
  | nil => intro s; rfl
  | cons R rs ih =>
    intro s
    rw [deliver_cons, ih]
    by_cases hp : p R = true <;> simp [Worker.Process, Process, hp]

/-- C3: `Filter(p).Process(R)` delivers to its successor the record `R`
itself, once, when `p(R)` holds, and nothing when it does not (the output
streams are then left as they are).  So the chain source, filter, sink run on
the text of well-formed records appends to the sink's stream exactly the text
of the records that satisfy `p`, in input order, and writes nothing else. -/
theorem Filter_property :
    (∀ (p : Email → Bool) (next_ : Option Worker) (R : Email) (s : Outs),
      Process (.mk (.filter p) next_) R s = deliver next_ (if p R then [R] else []) s ∧
      (p R = false → Process (.mk (.filter p) next_) R s = s)) ∧
    (∀ (p : Email → Bool) (recs : List Email) (i o : Nat) (W : World),
      WellFormed recs → W.ins i = IStream.ofString (serialize recs) →
      ∃ pipeline rest,
        (((PipelineBuilder.new i).FilterBy p).Send o).Build = .ok (some pipeline, rest) ∧
        Run pipeline W = some ⟨none, ⟨Function.update W.ins i ⟨[], true, true⟩,
          W.outs.put o (serialize (recs.filter p))⟩⟩) := by
  refine ⟨?_, ?_⟩
  · intro p next_ R s
    by_cases hp : p R = true <;> simp [Process, hp]
  · intro p recs i o W hwf hin
    refine ⟨.mk (.reader i) (some (.mk (.filter p) (some (.mk (.sender o) none)))),
      ⟨[none, none, none]⟩, rfl, ?_⟩
    rw [Run_reader_serialize i _ W recs hwf hin, deliver_filter, deliver_sender]

/-- C4: `Copier(t).Process(R)` delivers to its successor exactly the sequence
`R`, `{R.from, t, R.body}` when `R.to` differs from `t`, and exactly `R` when
`R.to` equals `t`; the original goes first and is `R` itself.  With a sink as
successor the stream receives the lines of these records in that order. -/
theorem Copier_property (t : Str) (R : Email) :
    (∀ (next_ : Option Worker) (s : Outs),
      Process (.mk (.copier t) next_) R s
        = deliver next_ (if R.to_ ≠ t then [R, ⟨R.from_, t, R.body⟩] else [R]) s) ∧
    (∀ (o : Nat) (s : Outs),
      Process (.mk (.copier t) (some (.mk (.sender o) none))) R s
        = s.put o (if R.to_ ≠ t then R.lines ++ (Email.mk R.from_ t R.body).lines
            else R.lines)) := by
  have key : ∀ (next_ : Option Worker) (s : Outs),
      Process (.mk (.copier t) next_) R s
        = deliver next_ (if R.to_ ≠ t then [R, ⟨R.from_, t, R.body⟩] else [R]) s := by
    intro next_ s
    by_cases ht : t = R.to_
    · have ht2 : ¬ (R.to_ ≠ t) := fun h => h ht.symm
      simp [Process, ht]
    · have ht2 : R.to_ ≠ t := fun h => ht h.symm
      simp [Process, ht, ht2]
  refine ⟨key, fun o s => ?_⟩
  rw [key, deliver_sender]
  by_cases ht : R.to_ = t <;> simp [ht, serialize]

/-- C5: the chain source, sink built by `PipelineBuilder(in).Send(out)` and
run on the text of records without newlines in their fields appends to `out`
exactly that text, and nothing is written elsewhere. -/
theorem source_sink_round_trip (recs : List Email) (i o : Nat) (W : World)
    (hwf : WellFormed recs) (hin : W.ins i = IStream.ofString (serialize recs)) :
    ∃ pipeline rest,
      ((PipelineBuilder.new i).Send o).Build = .ok (some pipeline, rest) ∧
      Run pipeline W = some ⟨none, ⟨Function.update W.ins i ⟨[], true, true⟩,
        W.outs.put o (serialize recs)⟩⟩ := by
  refine ⟨.mk (.reader i) (some (.mk (.sender o) none)), ⟨[none, none]⟩, rfl, ?_⟩
  rw [Run_reader_serialize i _ W recs hwf hin, deliver_sender]

theorem scan_terminates (fuel : Nat) :
    ∀ (from_ to_ body : Str) (s : IStream), s.buf.length < fuel →
      ∃ r, Reader.scan fuel from_ to_ body s = some r := by
  induction fuel with
  | zero => intro _ _ _ s h; simp at h
  | succ n ih =>
    intro from_ to_ body s hlen
    rw [Reader.scan]
    by_cases hok : (getline s from_).1.toBool = true
    · simp only [hok, if_true]
      have l1 := getline_progress s from_ hok
      have l2 := getline_length_le (getline s from_).1 to_
      have l3 := getline_length_le (getline (getline s from_).1 to_).1 body
      obtain ⟨r, e⟩ := ih (getline s from_).2 (getline (getline s from_).1 to_).2
        (getline (getline (getline s from_).1 to_).1 body).2
        (getline (getline (getline s from_).1 to_).1 body).1 (by omega)
      exact ⟨_, by rw [e]; rfl⟩
    · have hok2 : (getline s from_).1.toBool = false := by simpa using hok
      simp only [hok2]
      exact ⟨_, rfl⟩

/-- The method `Reader::Run` in any state of the streams: it ends without an
exception, having delivered some sequence of records to the successor. -/
theorem Run_reader_any (input_ : Nat) (W : World) :
    ∃ (L : List Email) (fin : IStream), ∀ next_ : Option Worker,
      Run (.mk (.reader input_) next_) W
        = some ⟨none, ⟨Function.update W.ins input_ fin, deliver next_ L W.outs⟩⟩ := by
  obtain ⟨r, e⟩ := scan_terminates ((W.ins input_).buf.length + 1) [] [] [] (W.ins input_)
    (Nat.lt_succ_self _)
  refine ⟨r.2, r.1, fun next_ => ?_⟩
  simp only [Run, Reader.loop_eq_scan, e]
  rfl

/-! ## What a chain writes -/

theorem Process_sender (o : Nat) (next_ : Option Worker) (R : Email) (s : Outs) :
    Process (.mk (.sender o) next_) R s = s.put o R.lines := by
  simp [Process, Sender.Process_eq]

theorem Process_chain_base (ks : List Kind) (e : Email) (s : Outs) :
    Worker.Process (chainFrom none (.base :: ks)) e s
      = Worker.Process (chainFrom none ks) e s := by
  simp [chainFrom, Worker.Process, Process]

theorem Process_chain_reader (i : Nat) (ks : List Kind) (e : Email) (s : Outs) :
    Worker.Process (chainFrom none (.reader i :: ks)) e s
      = Worker.Process (chainFrom none ks) e s := by
  simp [chainFrom, Worker.Process, Process]

theorem Process_chain_filter (f : Email → Bool) (ks : List Kind) (e : Email) (s : Outs) :
    Worker.Process (chainFrom none (.filter f :: ks)) e s
      = if f e then Worker.Process (chainFrom none ks) e s else s := by
  simp [chainFrom, Worker.Process, Process]

theorem Process_chain_copier (t : Str) (ks : List Kind) (e : Email) (s : Outs) :
    Worker.Process (chainFrom none (.copier t :: ks)) e s
      = if t ≠ e.to_ then
          Worker.Process (chainFrom none ks) ⟨e.from_, t, e.body⟩
            (Worker.Process (chainFrom none ks) e s)
        else Worker.Process (chainFrom none ks) e s := by
  simp [chainFrom, Worker.Process, Process]

theorem Process_chain_sender (o : Nat) (ks : List Kind) (e : Email) (s : Outs) :
    Worker.Process (chainFrom none (.sender o :: ks)) e s = s.put o e.lines := by
  simp [chainFrom, Worker.Process, Process_sender]

/-- Appending stages behind a `Send` stage changes nothing. -/
theorem Process_cut_at_sender (o : Nat) (ks2 : List Kind) (ks1 : List Kind) :
    ∀ (e : Email) (s : Outs),
      Worker.Process (chainFrom none (ks1 ++ .sender o :: ks2)) e s
        = Worker.Process (chainFrom none (ks1 ++ [.sender o])) e s := by
  induction ks1 with
  | nil => intro e s; simp [Process_chain_sender]
  | cons k ks ih =>
    intro e s
    cases k with
    | base => simp only [List.cons_append, Process_chain_base, ih]
    | reader i => simp only [List.cons_append, Process_chain_reader, ih]
    | filter f => simp only [List.cons_append, Process_chain_filter, ih]
    | copier t => simp only [List.cons_append, Process_chain_copier, ih]
    | sender o2 => simp only [List.cons_append, Process_chain_sender]

/-- Stages other than sinks in front of a `Send` stage: only the stream of
that stage is written, by appending, whatever comes behind it. -/
theorem Process_writes_first_sink (o : Nat) (ks2 : List Kind) (ks1 : List Kind)
    (h : ∀ k ∈ ks1, k.isSender = false) :
    ∀ (e : Email) (s : Outs), ∃ x : Str,
      Worker.Process (chainFrom none (ks1 ++ .sender o :: ks2)) e s = s.put o x := by
  induction ks1 with
  | nil => intro e s; exact ⟨e.lines, by simp [Process_chain_sender]⟩
  | cons k ks ih =>
    have ih2 := ih (fun c hc => h c (List.mem_cons_of_mem _ hc))
    intro e s
    cases k with
    | base => simpa only [List.cons_append, Process_chain_base] using ih2 e s
    | reader i => simpa only [List.cons_append, Process_chain_reader] using ih2 e s
    | filter f =>
      simp only [List.cons_append, Process_chain_filter]
      by_cases hf : f e = true
      · simpa only [hf, if_true] using ih2 e s
      · exact ⟨[], by simp [hf, Outs.put_nil]⟩
    | copier t =>
      simp only [List.cons_append, Process_chain_copier]
      obtain ⟨x, hx⟩ := ih2 e s
      by_cases ht : t = e.to_
      · exact ⟨x, by simp [ht] at hx ⊢; exact hx⟩
      · obtain ⟨y, hy⟩ := ih2 ⟨e.from_, t, e.body⟩ (s.put o x)
        refine ⟨x ++ y, ?_⟩
        simp only [ne_eq, ht, not_false_eq_true, if_true]
        rw [hx, hy, Outs.put_put]
    | sender o2 => simpa [Kind.isSender] using h (.sender o2) (by simp)

theorem deliver_writes_first_sink (o : Nat) (ks2 : List Kind) (ks1 : List Kind)
    (h : ∀ k ∈ ks1, k.isSender = false) (L : List Email) :
    ∀ s : Outs, ∃ x : Str,
      deliver (chainFrom none (ks1 ++ .sender o :: ks2)) L s = s.put o x := by
  induction L with
  | nil => intro s; exact ⟨[], by simp [Outs.put_nil]⟩
  | cons r rs ih =>
    intro s
    obtain ⟨x, hx⟩ := Process_writes_first_sink o ks2 ks1 h r s
    obtain ⟨y, hy⟩ := ih (s.put o x)
    exact ⟨x ++ y, by rw [deliver_cons, hx, hy, Outs.put_put]⟩

theorem kinds_of_calls (cs1 cs2 : List Call) (o : Nat) :
    (cs1 ++ Call.Send o :: cs2).map Call.kind
      = cs1.map Call.kind ++ Kind.sender o :: cs2.map Call.kind := by
  simp [Call.kind]

theorem no_sender_of_no_send (cs : List Call) (h : ∀ c ∈ cs, c.isSend = false) :
    ∀ k ∈ cs.map Call.kind, k.isSender = false := by
  intro k hk
  obtain ⟨c, hc, rfl⟩ := List.mem_map.mp hk
  have := h c hc
  cases c <;> simp_all [Call.kind, Kind.isSender, Call.isSend]

/-- C7: `Sender::Process(R)` appends `R.from`, `R.to`, `R.body`, each followed
by a newline, to its stream and hands nothing on, whatever its successor.  So
a chain with stages appended behind a `Send` stage runs exactly like the chain
that ends at that stage, and when the `Send` stage is the first one of the
chain, the run writes to no other stream (a later `Send` writes nothing). -/
theorem Sender_terminal :
    (∀ (o : Nat) (next_ : Option Worker) (R : Email) (s : Outs),
      Process (.mk (.sender o) next_) R s
        = s.put o (R.from_ ++ ['\n'] ++ R.to_ ++ ['\n'] ++ R.body ++ ['\n'])) ∧
    (∀ (i o : Nat) (cs1 cs2 : List Call) (W : World),
      ∃ long short r1 r2,
        ((PipelineBuilder.new i).calls (cs1 ++ Call.Send o :: cs2)).Build = .ok (some long, r1) ∧
        ((PipelineBuilder.new i).calls (cs1 ++ [Call.Send o])).Build = .ok (some short, r2) ∧
        Run long W = Run short W ∧
        ((∀ c ∈ cs1, c.isSend = false) →
          ∃ out, Run long W = some out ∧ out.raised = none ∧
            ∀ o2, o2 ≠ o → out.world.outs o2 = W.outs o2)) := by
  refine ⟨?_, ?_⟩
  · intro o next_ R s
    simp [Process_sender, Email.lines]
  · intro i o cs1 cs2 W
    refine ⟨_, _, _, _, Build_calls i _, Build_calls i _, ?_, ?_⟩
    · have e2 := kinds_of_calls cs1 [] o
      simp only [List.map_nil] at e2
      rw [kinds_of_calls, e2]
      exact Run_reader_congr i _ _ (Process_cut_at_sender o _ _) W
    · intro h
      obtain ⟨L, fin, hrun⟩ := Run_reader_any i W
      obtain ⟨x, hx⟩ := deliver_writes_first_sink o (cs2.map Call.kind) (cs1.map Call.kind)
        (no_sender_of_no_send cs1 h) L W.outs
      refine ⟨_, hrun _, rfl, fun o2 ho2 => ?_⟩
      simp only [kinds_of_calls, hx]
      exact Outs.put_other _ _ _ _ ho2

theorem Process_no_sink (ks : List Kind) (h : ∀ k ∈ ks, k.isSender = false) :
    ∀ (e : Email) (s : Outs), Worker.Process (chainFrom none ks) e s = s := by
  induction ks with
  | nil => intro e s; rfl
  | cons k ks ih =>
    have ih2 := ih (fun c hc => h c (List.mem_cons_of_mem _ hc))
    intro e s
    cases k with
    | base => rw [Process_chain_base, ih2]
    | reader i => rw [Process_chain_reader, ih2]
    | filter f => rw [Process_chain_filter, ih2]; simp
    | copier t => rw [Process_chain_copier, ih2, ih2]; simp
    | sender o2 => simpa [Kind.isSender] using h (.sender o2) (by simp)

theorem deliver_no_sink (ks : List Kind) (h : ∀ k ∈ ks, k.isSender = false)
    (L : List Email) : ∀ s : Outs, deliver (chainFrom none ks) L s = s := by
  induction L with
  | nil => intro s; rfl
  | cons r rs ih => intro s; rw [deliver_cons, Process_no_sink ks h, ih]

/-- C10: the base method `Worker::Process` (which `Reader::Process` calls too)
hands the record to the successor when there is one and otherwise does
nothing.  So a chain without `Send` stage, run on any text, ends without an
exception with the input used up and every output stream as it was. -/
theorem default_forwarding :
    (∀ (n : Worker) (R : Email) (s : Outs),
      Process (.mk .base (some n)) R s = Process n R s ∧
      (∀ i, Process (.mk (.reader i) (some n)) R s = Process n R s)) ∧
    (∀ (R : Email) (s : Outs),
      Process (.mk .base none) R s = s ∧ (∀ i, Process (.mk (.reader i) none) R s = s)) ∧
    (∀ (i : Nat) (cs : List Call) (text : Str) (W : World),
      (∀ c ∈ cs, c.isSend = false) → W.ins i = IStream.ofString text →
      ∃ pipeline rest,
        ((PipelineBuilder.new i).calls cs).Build = .ok (some pipeline, rest) ∧
        Run pipeline W
          = some ⟨none, ⟨Function.update W.ins i ⟨[], true, true⟩, W.outs⟩⟩) := by
  refine ⟨fun n R s => ⟨rfl, fun _ => rfl⟩, fun R s => ⟨rfl, fun _ => rfl⟩, ?_⟩
  intro i cs text W h hin
  obtain ⟨L, hrun⟩ := Run_reader_total i text
  refine ⟨_, _, Build_calls i cs, ?_⟩
  rw [hrun _ W hin, deliver_no_sink _ (no_sender_of_no_send cs h)]

/-- C9: `Run()` throws `logic_error("Unimplemented")` exactly for the stages
that are not a `Reader`, and then leaves every stream as it was; for a
`Reader`, and so for the head returned by `Build()` after any calls of the
builder, `Run()` ends without an exception in every state of the streams. -/
theorem Run_unimplemented_iff_not_reader :
    (∀ (w : Worker) (W : World), w.kind.isReader = false →
      Run w W = some ⟨some (.logic_error "Unimplemented"), W⟩) ∧
    (∀ (w : Worker) (W : World), w.kind.isReader = true →
      ∃ W2, Run w W = some ⟨none, W2⟩) ∧
    (∀ (w : Worker) (W : World),
      ((Run w W).map fun r => r.raised) = some (some (.logic_error "Unimplemented"))
        ↔ w.kind.isReader = false) ∧
    (∀ (i : Nat) (cs : List Call) (W : World),
      ∃ head rest W2, ((PipelineBuilder.new i).calls cs).Build = .ok (some head, rest) ∧
        Run head W = some ⟨none, W2⟩) := by
  have hthrow : ∀ (w : Worker) (W : World), w.kind.isReader = false →
      Run w W = some ⟨some (.logic_error "Unimplemented"), W⟩ := by
    intro w W h
    cases w with
    | mk k n => cases k <;> first | rfl | simp [Worker.kind, Kind.isReader] at h
  have hruns : ∀ (w : Worker) (W : World), w.kind.isReader = true →
      ∃ W2, Run w W = some ⟨none, W2⟩ := by
    intro w W h
    cases w with
    | mk k n =>
      cases k with
      | reader i =>
        obtain ⟨L, fin, hrun⟩ := Run_reader_any i W
        exact ⟨_, hrun n⟩
      | base => simp [Worker.kind, Kind.isReader] at h
      | filter f => simp [Worker.kind, Kind.isReader] at h
      | copier t => simp [Worker.kind, Kind.isReader] at h
      | sender o => simp [Worker.kind, Kind.isReader] at h
  refine ⟨hthrow, hruns, ?_, ?_⟩
  · intro w W
    cases hk : w.kind.isReader with
    | false => simp [hthrow w W hk]
    | true =>
      obtain ⟨W2, e⟩ := hruns w W hk
      simp [e]
  · intro i cs W
    obtain ⟨W2, e⟩ := hruns (.mk (.reader i) (chainFrom none (cs.map Call.kind))) W rfl
    exact ⟨_, _, W2, Build_calls i cs, e⟩

/-- What a chain appends to the streams for one record does not depend on
what the streams hold. -/
theorem Process_frame (ks : List Kind) :
    ∀ (e : Email) (s : Outs),
      Worker.Process (chainFrom none ks) e s
        = fun o => s o ++ Worker.Process (chainFrom none ks) e (fun _ => []) o := by
  induction ks with
  | nil => intro e s; funext o; simp [chainFrom, Worker.Process]
  | cons k ks ih =>
    intro e s
    cases k with
    | base => simp only [Process_chain_base]; exact ih e s
    | reader i => simp only [Process_chain_reader]; exact ih e s
    | filter f =>
      simp only [Process_chain_filter]
      by_cases hf : f e = true
      · simp only [hf, if_true]; exact ih e s
      · simp [hf]
    | copier t =>
      simp only [Process_chain_copier]
      by_cases ht : t = e.to_
      · simp only [ne_eq, ht, not_true_eq_false, if_false]; exact ih e s
      · simp only [ne_eq, ht, not_false_eq_true, if_true]
        rw [ih ⟨e.from_, t, e.body⟩ (Worker.Process (chainFrom none ks) e s),
          ih ⟨e.from_, t, e.body⟩ (Worker.Process (chainFrom none ks) e fun _ => []), ih e s]
        funext o
        simp [List.append_assoc]
    | sender o2 =>
      simp only [Process_chain_sender]
      funext o
      by_cases h : o = o2
      · subst h; simp [Outs.put_same]
      · simp [Outs.put_other _ _ _ _ h]

theorem deliver_frame (ks : List Kind) (L : List Email) :
    ∀ s : Outs, deliver (chainFrom none ks) L s
      = fun o => s o ++ deliver (chainFrom none ks) L (fun _ => []) o := by
  induction L with
  | nil => intro s; funext o; simp
  | cons r rs ih =>
    intro s
    rw [deliver_cons, deliver_cons, ih (Worker.Process (chainFrom none ks) r s),
      ih (Worker.Process (chainFrom none ks) r fun _ => []), Process_frame ks r s]
    funext o
    simp [List.append_assoc]

theorem serialize_append (A B : List Email) :
    serialize (A ++ B) = serialize A ++ serialize B := by
  induction A with
  | nil => rfl
  | cons a as ih => simp [serialize, ih]

theorem outputOf_serialize (i : Nat) (next_ : Option Worker) (recs : List Email)
    (hwf : WellFormed recs) :
    outputOf (.mk (.reader i) next_) (serialize recs)
      = some (deliver next_ recs fun _ => []) := by
  rw [outputOf, Run_reader_serialize i next_ _ recs hwf rfl]
  rfl

theorem deliver_flatten (ks : List Kind) (recs : List Email) :
    deliver (chainFrom none ks) recs (fun _ => [])
      = fun o => (recs.map fun r => Worker.Process (chainFrom none ks) r (fun _ => []) o).flatten := by
  induction recs with
  | nil => rfl
  | cons r rs ih =>
    rw [deliver_cons, deliver_frame, ih]
    funext o
    simp

/-- C6: for a chain made by the builder and well-formed inputs `A` and `B`,
the streams after a run on `A` followed by `B` hold what a run on `A` writes
followed by what a run on `B` writes.  So the output for a sequence of records
is the concatenation, in input order, of the outputs for the single records:
all that comes from one record is written in one piece, before the output of
the next record. -/
theorem ordering_of_output (i : Nat) (cs : List Call) :
    ∃ pipeline rest,
      ((PipelineBuilder.new i).calls cs).Build = .ok (some pipeline, rest) ∧
      (∀ A B : List Email, WellFormed A → WellFormed B →
        ∃ oA oB, outputOf pipeline (serialize A) = some oA ∧
          outputOf pipeline (serialize B) = some oB ∧
          outputOf pipeline (serialize A ++ serialize B) = some fun o => oA o ++ oB o) ∧
      (∃ per : Email → Outs,
        ∀ recs : List Email, WellFormed recs →
          (∀ r ∈ recs, outputOf pipeline (serialize [r]) = some (per r)) ∧
          outputOf pipeline (serialize recs)
            = some fun o => (recs.map fun r => per r o).flatten) := by
  refine ⟨_, _, Build_calls i cs, ?_, ?_⟩
  · intro A B hA hB
    have hAB : WellFormed (A ++ B) := by
      intro r hr
      rcases List.mem_append.mp hr with h | h
      · exact hA r h
      · exact hB r h
    refine ⟨_, _, outputOf_serialize i _ A hA, outputOf_serialize i _ B hB, ?_⟩
    rw [← serialize_append, outputOf_serialize i _ _ hAB, deliver_append, deliver_frame]
  · refine ⟨fun r => Worker.Process (chainFrom none (cs.map Call.kind)) r fun _ => [], ?_⟩
    intro recs hwf
    refine ⟨fun r hr => ?_, ?_⟩
    · have h1 : WellFormed [r] := by
        intro x hx
        have : x = r := by simpa using hx
        subst this
        exact hwf x hr
      rw [outputOf_serialize i _ [r] h1]
      rfl
    · rw [outputOf_serialize i _ recs hwf, deliver_flatten]

theorem scan_not_good (n : Nat) (from_ to_ body : Str) (s : IStream) (h : s.good = false) :
    Reader.scan (n + 1) from_ to_ body s = some (⟨s.buf, s.eofbit, true⟩, []) := by
  simp [Reader.scan, getline_not_good s _ h, IStream.toBool]

theorem scan_lines (tail : Str) (htail : OneLine tail) :
    ∀ (to_ body : Str) (ls : List Str), (∀ l ∈ ls, OneLine l) →
      ∀ (fuel : Nat) (from_ : Str), (unlines ls ++ tail).length < fuel →
        Reader.scan fuel from_ to_ body ⟨unlines ls ++ tail, false, false⟩
          = some (⟨[], true, true⟩, groups tail to_ body ls) := by
  intro to_ body ls
  induction to_, body, ls using groups.induct tail with
  | case1 t0 b0 a b c rest ih =>
    intro hls fuel from_ hf
    have ha := hls a (by simp)
    have hb := hls b (by simp)
    have hc := hls c (by simp)
    cases fuel with
    | zero => simp at hf
    | succ n =>
      have e : unlines (a :: b :: c :: rest) ++ tail
          = a ++ '\n' :: (b ++ '\n' :: (c ++ '\n' :: (unlines rest ++ tail))) := by
        simp [unlines]
      have hlen : (unlines rest ++ tail).length < n := by
        rw [e] at hf; simp at hf ⊢; omega
      rw [e, Reader.scan]
      simp only [getline_line _ _ _ ha, getline_line _ _ _ hb, getline_line _ _ _ hc,
        IStream.toBool]
      simp [ih (fun l hl => hls l (by simp [hl])) n _ hlen, groups]
  | case2 t0 b0 a b =>
    intro hls fuel from_ hf
    have ha := hls a (by simp)
    have hb := hls b (by simp)
    have e : unlines [a, b] ++ tail = a ++ '\n' :: (b ++ '\n' :: tail) := by
      simp [unlines]
    rw [e] at hf ⊢
    obtain ⟨n, rfl⟩ : ∃ n, fuel = n + 2 := ⟨fuel - 2, by simp at hf; omega⟩
    rw [Reader.scan]
    simp only [getline_line _ _ _ ha, getline_line _ _ _ hb, getline_last _ _ htail,
      IStream.toBool]
    simp [scan_not_good, IStream.good, groups]
  | case3 t0 b0 a =>
    intro hls fuel from_ hf
    have ha := hls a (by simp)
    have e : unlines [a] ++ tail = a ++ '\n' :: tail := by
      simp [unlines]
    rw [e] at hf ⊢
    obtain ⟨n, rfl⟩ : ∃ n, fuel = n + 2 := ⟨fuel - 2, by simp at hf; omega⟩
    rw [Reader.scan]
    simp only [getline_line _ _ _ ha, getline_last _ _ htail, IStream.toBool]
    simp [scan_not_good, getline_not_good, IStream.good, groups]
  | case4 t0 b0 hemp =>
    intro hls fuel from_ hf
    have htl : tail = [] := by simpa using hemp
    subst htl
    obtain ⟨n, rfl⟩ : ∃ n, fuel = n + 1 := ⟨fuel - 1, by omega⟩
    rw [Reader.scan]
    simp [unlines, getline_end, IStream.toBool, groups]
  | case5 t0 b0 hemp =>
    intro hls fuel from_ hf
    have e : unlines [] ++ tail = tail := rfl
    rw [e] at hf ⊢
    have hpos : 0 < tail.length := by
      cases htl : tail with
      | nil => simp [htl] at hemp
      | cons x xs => simp
    obtain ⟨n, rfl⟩ : ∃ n, fuel = n + 2 := ⟨fuel - 2, by omega⟩
    rw [Reader.scan]
    simp only [getline_last _ _ htail, IStream.toBool]
    simp [scan_not_good, getline_not_good, IStream.good, groups, hemp]

theorem allLines_cons (l : Str) (ls : List Str) (tail : Str) :
    allLines (l :: ls) tail = l :: allLines ls tail := rfl

theorem groups_length (tail : Str) :
    ∀ (to_ body : Str) (ls : List Str),
      (groups tail to_ body ls).length = ((allLines ls tail).length + 2) / 3 := by
  intro to_ body ls
  induction to_, body, ls using groups.induct tail with
  | case1 t0 b0 a b c rest ih =>
    simp only [groups, allLines_cons, List.length_cons, ih]
    omega
  | case2 t0 b0 a b =>
    by_cases h : tail.isEmpty = true <;> simp [groups, allLines, h]
  | case3 t0 b0 a =>
    by_cases h : tail.isEmpty = true <;> simp [groups, allLines, h]
  | case4 t0 b0 hemp => simp [groups, allLines, hemp]
  | case5 t0 b0 hemp => simp [groups, allLines, hemp]

theorem groups_complete (tail : Str) :
    ∀ (to_ body : Str) (ls : List Str) (k : Nat) (a b c : Str),
      (allLines ls tail)[3 * k]? = some a → (allLines ls tail)[3 * k + 1]? = some b →
      (allLines ls tail)[3 * k + 2]? = some c →
      (groups tail to_ body ls)[k]? = some ⟨a, b, c⟩ := by
  intro to_ body ls
  induction to_, body, ls using groups.induct tail with
  | case1 t0 b0 x y z rest ih =>
    intro k a b c h0 h1 h2
    cases k with
    | zero =>
      simp only [allLines_cons] at h0 h1 h2
      simp at h0 h1 h2
      simp [groups, h0, h1, h2]
    | succ j =>
      have e0 : 3 * (j + 1) = (3 * j) + 1 + 1 + 1 := by ring
      have e1 : 3 * (j + 1) + 1 = (3 * j + 1) + 1 + 1 + 1 := by ring
      have e2 : 3 * (j + 1) + 2 = (3 * j + 2) + 1 + 1 + 1 := by ring
      rw [e0] at h0; rw [e1] at h1; rw [e2] at h2
      simp only [allLines_cons, List.getElem?_cons_succ] at h0 h1 h2
      simp only [groups, List.getElem?_cons_succ]
      exact ih j a b c h0 h1 h2
  | case2 t0 b0 x y =>
    intro k a b c h0 h1 h2
    by_cases h : tail.isEmpty = true
    · simp only [allLines, h, if_true, List.append_nil] at h2
      have := (List.getElem?_eq_some_iff.mp h2).1
      simp at this
    · simp only [allLines, h] at h0 h1 h2
      have hk : k = 0 := by
        have := (List.getElem?_eq_some_iff.mp h2).1
        simp at this; omega
      subst hk
      simp at h0 h1 h2
      simp [groups, h0, h1, h2]
  | case3 t0 b0 x =>
    intro k a b c h0 h1 h2
    have := (List.getElem?_eq_some_iff.mp h2).1
    by_cases h : tail.isEmpty = true <;> simp [allLines, h] at this
  | case4 t0 b0 hemp =>
    intro k a b c h0 h1 h2
    simp [allLines, hemp] at h0
  | case5 t0 b0 hemp =>
    intro k a b c h0 h1 h2
    have := (List.getElem?_eq_some_iff.mp h2).1
    simp [allLines, hemp] at this

theorem groups_sender (tail : Str) :
    ∀ (to_ body : Str) (ls : List Str) (k : Nat) (a : Str),
      (allLines ls tail)[3 * k]? = some a →
      ∃ r, (groups tail to_ body ls)[k]? = some r ∧ r.from_ = a := by
  intro to_ body ls
  induction to_, body, ls using groups.induct tail with
  | case1 t0 b0 x y z rest ih =>
    intro k a h0
    cases k with
    | zero =>
      simp only [allLines_cons] at h0
      simp at h0
      exact ⟨⟨x, y, z⟩, by simp [groups], h0⟩
    | succ j =>
      have e0 : 3 * (j + 1) = (3 * j) + 1 + 1 + 1 := by ring
      rw [e0] at h0
      simp only [allLines_cons, List.getElem?_cons_succ] at h0
      simp only [groups, List.getElem?_cons_succ]
      exact ih j a h0
  | case2 t0 b0 x y =>
    intro k a h0
    have hk : k = 0 := by
      have := (List.getElem?_eq_some_iff.mp h0).1
      by_cases h : tail.isEmpty = true <;> simp [allLines, h] at this <;> omega
    subst hk
    simp [allLines] at h0
    exact ⟨⟨x, y, tail⟩, by simp [groups], h0⟩
  | case3 t0 b0 x =>
    intro k a h0
    have hk : k = 0 := by
      have := (List.getElem?_eq_some_iff.mp h0).1
      by_cases h : tail.isEmpty = true <;> simp [allLines, h] at this <;> omega
    subst hk
    simp [allLines] at h0
    exact ⟨⟨x, tail, b0⟩, by simp [groups], h0⟩
  | case4 t0 b0 hemp =>
    intro k a h0
    simp [allLines, hemp] at h0
  | case5 t0 b0 hemp =>
    intro k a h0
    have hk : k = 0 := by
      have := (List.getElem?_eq_some_iff.mp h0).1
      simp [allLines, hemp] at this; omega
    subst hk
    simp [allLines, hemp] at h0
    exact ⟨⟨tail, t0, b0⟩, by simp [groups, hemp], h0⟩

theorem oneLine_cons (c : Char) (l : Str) (hc : c ≠ '\n') (hl : OneLine l) :
    OneLine (c :: l) := by
  intro m
  rcases List.mem_cons.mp m with h | h
  · exact hc h.symm
  · exact hl h

theorem text_lines (text : Str) :
    ∃ ls tail, (∀ l ∈ ls, OneLine l) ∧ OneLine tail ∧ text = unlines ls ++ tail := by
  induction text with
  | nil => exact ⟨[], [], by simp, by simp [OneLine], rfl⟩
  | cons c cs ih =>
    obtain ⟨ls, tail, h1, h2, h3⟩ := ih
    by_cases hc : c = '\n'
    · refine ⟨[] :: ls, tail, ?_, h2, by simp [unlines, hc, h3]⟩
      intro l hl
      rcases List.mem_cons.mp hl with h | h
      · rw [h]; simp [OneLine]
      · exact h1 l h
    · cases ls with
      | nil => exact ⟨[], c :: tail, by simp, oneLine_cons c tail hc h2, by simp [unlines, h3]⟩
      | cons l ls2 =>
        refine ⟨(c :: l) :: ls2, tail, ?_, h2, by simp [unlines, h3]⟩
        intro x hx
        rcases List.mem_cons.mp hx with h | h
        · rw [h]; exact oneLine_cons c l hc (h1 l (by simp))
        · exact h1 x (by simp [h])

/-- C8: `Reader::Run` reads the text in groups of three lines and ends, without
an exception, when no sender line can be read.  Every text is a sequence of
lines, the last of which may lack its newline; for a text of `n` lines the
successor receives `(n + 2) / 3` records (none for the empty text); the `k`-th
complete group of lines makes the `k`-th record; and every sender line that
is read, also one of a last group of one or two lines, heads a record that is
handed on. -/
theorem Reader_reads_groups_of_three :
    (∀ text : Str, ∃ ls tail,
      (∀ l ∈ ls, OneLine l) ∧ OneLine tail ∧ text = unlines ls ++ tail) ∧
    (∀ (ls : List Str) (tail : Str) (i : Nat) (next_ : Option Worker) (W : World),
      (∀ l ∈ ls, OneLine l) → OneLine tail →
      W.ins i = IStream.ofString (unlines ls ++ tail) →
      Run (.mk (.reader i) next_) W
        = some ⟨none, ⟨Function.update W.ins i ⟨[], true, true⟩,
            deliver next_ (groups tail [] [] ls) W.outs⟩⟩ ∧
      (groups tail [] [] ls).length = ((allLines ls tail).length + 2) / 3 ∧
      (∀ (k : Nat) (a b c : Str),
        (allLines ls tail)[3 * k]? = some a → (allLines ls tail)[3 * k + 1]? = some b →
        (allLines ls tail)[3 * k + 2]? = some c →
        (groups tail [] [] ls)[k]? = some ⟨a, b, c⟩) ∧
      (∀ (k : Nat) (a : Str), (allLines ls tail)[3 * k]? = some a →
        ∃ r, (groups tail [] [] ls)[k]? = some r ∧ r.from_ = a)) := by
  refine ⟨text_lines, ?_⟩
  intro ls tail i next_ W hls htail hin
  refine ⟨?_, groups_length tail _ _ ls, groups_complete tail _ _ ls,
    groups_sender tail _ _ ls⟩
  simp only [Run, Reader.loop_eq_scan, hin]
  have hl : (IStream.ofString (unlines ls ++ tail)).buf.length
      = (unlines ls ++ tail).length := rfl
  have hs : IStream.ofString (unlines ls ++ tail) = ⟨unlines ls ++ tail, false, false⟩ := rfl
  rw [hl, hs, scan_lines tail htail [] [] ls hls _ [] (Nat.lt_succ_self _)]
  rfl

/-! ## Instances of the theorems on concrete inputs -/

set_option maxRecDepth 100000 in
theorem pipeline_end_to_end_witness :
    WellFormed TestSanity.records ∧
    TestSanity.world.ins 0 = IStream.ofString (serialize TestSanity.records) ∧
    ∃ pipeline rest,
      ((((PipelineBuilder.new 0).FilterBy TestSanity.pred).CopyTo
          "richard@example.com".toList).Send 0).Build = .ok (some pipeline, rest) ∧
      Run pipeline TestSanity.world
        = some ⟨none, ⟨Function.update TestSanity.world.ins 0 ⟨[], true, true⟩,
            TestSanity.world.outs.put 0
              (Spec.endToEnd TestSanity.pred "richard@example.com".toList
                TestSanity.records)⟩⟩ :=
  ⟨by decide, by decide,
    pipeline_end_to_end.1 TestSanity.records TestSanity.pred "richard@example.com".toList 0 0
      TestSanity.world (by decide) (by decide)⟩

theorem Filter_property_witness :
    WellFormed Sample.records ∧
    Sample.world.ins 0 = IStream.ofString (serialize Sample.records) ∧
    ∃ pipeline rest,
      (((PipelineBuilder.new 0).FilterBy fun e => e.from_ == ['a']).Send 0).Build
        = .ok (some pipeline, rest) ∧
      Run pipeline Sample.world
        = some ⟨none, ⟨Function.update Sample.world.ins 0 ⟨[], true, true⟩,
            Sample.world.outs.put 0
              (serialize (Sample.records.filter fun e => e.from_ == ['a']))⟩⟩ :=
  ⟨by decide, rfl,
    Filter_property.2 (fun e => e.from_ == ['a']) Sample.records 0 0 Sample.world
      (by decide) rfl⟩

theorem source_sink_round_trip_witness :
    WellFormed Sample.records ∧
    Sample.world.ins 0 = IStream.ofString (serialize Sample.records) ∧
    ∃ pipeline rest,
      ((PipelineBuilder.new 0).Send 0).Build = .ok (some pipeline, rest) ∧
      Run pipeline Sample.world
        = some ⟨none, ⟨Function.update Sample.world.ins 0 ⟨[], true, true⟩,
            Sample.world.outs.put 0 (serialize Sample.records)⟩⟩ :=
  ⟨by decide, rfl, source_sink_round_trip Sample.records 0 0 Sample.world (by decide) rfl⟩

theorem ordering_of_output_witness :
    WellFormed Sample.records ∧ WellFormed TestSanity.records ∧
    ∃ pipeline rest,
      ((PipelineBuilder.new 0).calls [Call.CopyTo ['x'], Call.Send 0]).Build
        = .ok (some pipeline, rest) ∧
      ∃ oA oB, outputOf pipeline (serialize Sample.records) = some oA ∧
        outputOf pipeline (serialize TestSanity.records) = some oB ∧
        outputOf pipeline (serialize Sample.records ++ serialize TestSanity.records)
          = some fun o => oA o ++ oB o :=
  ⟨by decide, by decide,
    match ordering_of_output 0 [Call.CopyTo ['x'], Call.Send 0] with
    | ⟨pipeline, rest, hb, hcat, _⟩ =>
      ⟨pipeline, rest, hb, hcat Sample.records TestSanity.records (by decide) (by decide)⟩⟩

theorem Sender_terminal_witness :
    (∀ c ∈ [Call.CopyTo ['x']], c.isSend = false) ∧
    ∃ long short r1 r2,
      ((PipelineBuilder.new 0).calls ([Call.CopyTo ['x']] ++ Call.Send 0 :: [Call.Send 1])).Build
        = .ok (some long, r1) ∧
      ((PipelineBuilder.new 0).calls ([Call.CopyTo ['x']] ++ [Call.Send 0])).Build
        = .ok (some short, r2) ∧
      Run long Sample.world = Run short Sample.world ∧
      ∃ out, Run long Sample.world = some out ∧ out.raised = none ∧
        ∀ o2, o2 ≠ 0 → out.world.outs o2 = Sample.world.outs o2 :=
  ⟨by decide,
    match Sender_terminal.2 0 0 [Call.CopyTo ['x']] [Call.Send 1] Sample.world with
    | ⟨long, short, r1, r2, h1, h2, h3, h4⟩ =>
      ⟨long, short, r1, r2, h1, h2, h3, h4 (by decide)⟩⟩

theorem Reader_reads_groups_of_three_witness :
    (∀ l ∈ [['a'], ['b'], ['c'], ['d']], OneLine l) ∧ OneLine ['e'] ∧
    Sample.ragged.ins 0 = IStream.ofString (unlines [['a'], ['b'], ['c'], ['d']] ++ ['e']) ∧
    Run (.mk (.reader 0) none) Sample.ragged
      = some ⟨none, ⟨Function.update Sample.ragged.ins 0 ⟨[], true, true⟩,
          deliver none (groups ['e'] [] [] [['a'], ['b'], ['c'], ['d']]) Sample.ragged.outs⟩⟩ ∧
    (groups ['e'] [] [] [['a'], ['b'], ['c'], ['d']]).length
      = ((allLines [['a'], ['b'], ['c'], ['d']] ['e']).length + 2) / 3 :=
  ⟨by decide, by decide, rfl,
    (Reader_reads_groups_of_three.2 [['a'], ['b'], ['c'], ['d']] ['e'] 0 none Sample.ragged
      (by decide) (by decide) rfl).1,
    (Reader_reads_groups_of_three.2 [['a'], ['b'], ['c'], ['d']] ['e'] 0 none Sample.ragged
      (by decide) (by decide) rfl).2.1⟩

theorem Run_unimplemented_iff_not_reader_witness :
    (Worker.mk (.sender 0) none).kind.isReader = false ∧
    Run (.mk (.sender 0) none) Sample.world
      = some ⟨some (.logic_error "Unimplemented"), Sample.world⟩ ∧
    (Worker.mk (.reader 0) none).kind.isReader = true ∧
    ∃ W2, Run (.mk (.reader 0) none) Sample.world = some ⟨none, W2⟩ :=
  ⟨rfl, Run_unimplemented_iff_not_reader.1 (.mk (.sender 0) none) Sample.world rfl, rfl,
    Run_unimplemented_iff_not_reader.2.1 (.mk (.reader 0) none) Sample.world rfl⟩

theorem default_forwarding_witness :
    (∀ c ∈ [Call.FilterBy fun e => e.from_ == ['a'], Call.CopyTo ['x']], c.isSend = false) ∧
    Sample.ragged.ins 0 = IStream.ofString (unlines [['a'], ['b'], ['c'], ['d']] ++ ['e']) ∧
    ∃ pipeline rest,
      ((PipelineBuilder.new 0).calls
          [Call.FilterBy fun e => e.from_ == ['a'], Call.CopyTo ['x']]).Build
        = .ok (some pipeline, rest) ∧
      Run pipeline Sample.ragged
        = some ⟨none, ⟨Function.update Sample.ragged.ins 0 ⟨[], true, true⟩,
            Sample.ragged.outs⟩⟩ :=
  ⟨by decide, rfl,
    default_forwarding.2.2 0 [Call.FilterBy fun e => e.from_ == ['a'], Call.CopyTo ['x']]
      (unlines [['a'], ['b'], ['c'], ['d']] ++ ['e']) Sample.ragged (by decide) rfl⟩

/-! ## The builder before `Build` -/

/-- C11: the constructor makes the vector that holds the source alone; each
of `FilterBy`, `CopyTo` and `Send` appends one stage of its kind, without
successor, behind the stages that are there, which stay as they are.  So
after `k` such calls on a new builder the vector has `k + 1` elements, none of
them null, the first is the source and element `j + 1` is the stage of call
`j`; the vector is never empty, which is what `Build()` needs. -/
theorem builder_accumulation :
    (∀ i : Nat, (PipelineBuilder.new i).workers = [some (.mk (.reader i) none)]) ∧
    (∀ (b : PipelineBuilder) (f : Email → Bool),
      (b.FilterBy f).workers = b.workers ++ [some (.mk (.filter f) none)]) ∧
    (∀ (b : PipelineBuilder) (t : Str),
      (b.CopyTo t).workers = b.workers ++ [some (.mk (.copier t) none)]) ∧
    (∀ (b : PipelineBuilder) (o : Nat),
      (b.Send o).workers = b.workers ++ [some (.mk (.sender o) none)]) ∧
    (∀ (i : Nat) (cs : List Call),
      ((PipelineBuilder.new i).calls cs).workers
        = some (.mk (.reader i) none) :: cs.map (fun c => some (Worker.mk c.kind none)) ∧
      ((PipelineBuilder.new i).calls cs).workers.length = cs.length + 1 ∧
      ((PipelineBuilder.new i).calls cs).workers[0]? = some (some (.mk (.reader i) none)) ∧
      (∀ (j : Nat) (c : Call), cs[j]? = some c →
        ((PipelineBuilder.new i).calls cs).workers[j + 1]? = some (some (.mk c.kind none))) ∧
      ((PipelineBuilder.new i).calls cs).workers ≠ [] ∧
      ∃ head rest, ((PipelineBuilder.new i).calls cs).Build = .ok (some head, rest)) := by
  refine ⟨fun _ => rfl, fun _ _ => rfl, fun _ _ => rfl, fun _ _ => rfl, ?_⟩
  intro i cs
  have hw : ((PipelineBuilder.new i).calls cs).workers
      = some (.mk (.reader i) none) :: cs.map (fun c => some (Worker.mk c.kind none)) := by
    rw [calls_workers]; rfl
  refine ⟨hw, ?_, ?_, ?_, ?_, _, _, Build_calls i cs⟩
  · rw [hw]; simp
  · rw [hw]; simp
  · intro j c hj
    rw [hw, List.getElem?_cons_succ, List.getElem?_map, hj]
    rfl
  · rw [hw]; simp

theorem builder_accumulation_witness :
    Sample.calls[1]? = some (Call.CopyTo ['x']) ∧
    ((PipelineBuilder.new 0).calls Sample.calls).workers[1 + 1]?
      = some (some (.mk (Call.CopyTo ['x']).kind none)) :=
  ⟨rfl, (builder_accumulation.2.2.2.2 0 Sample.calls).2.2.2.1 1 (Call.CopyTo ['x']) rfl⟩

/-! ## What the stages hand on -/

theorem chainFrom_append (p : Option Worker) (xs ys : List Kind) :
    chainFrom p (xs ++ ys) = chainFrom (chainFrom p ys) xs := by
  induction xs with
  | nil => rfl
  | cons k ks ih => simp [chainFrom, ih]

/-- Stages that are no sinks act on what follows them by handing it the
records `arrivals`, one after the other. -/
theorem arrivals_spec (p : Option Worker) (ks : List Kind)
    (h : ∀ k ∈ ks, k.isSender = false) :
    ∀ (e : Email) (s : Outs),
      Worker.Process (chainFrom p ks) e s = deliver p (arrivals ks e) s := by
  induction ks with
  | nil => intro e s; rfl
  | cons k ks ih =>
    have ih2 := ih (fun c hc => h c (List.mem_cons_of_mem _ hc))
    intro e s
    cases k with
    | base => simpa [chainFrom, Worker.Process, Process, arrivals] using ih2 e s
    | reader i => simpa [chainFrom, Worker.Process, Process, arrivals] using ih2 e s
    | filter f =>
      by_cases hf : f e = true
      · simpa [chainFrom, Worker.Process, Process, arrivals, hf] using ih2 e s
      · simp [chainFrom, Worker.Process, Process, arrivals, hf]
    | copier t =>
      have h1 := ih2 e s
      by_cases ht : t = e.to_
      · simpa [chainFrom, Worker.Process, Process, arrivals, ht] using h1
      · have h2 := ih2 ⟨e.from_, t, e.body⟩ (Worker.Process (chainFrom p ks) e s)
        simp only [chainFrom, Worker.Process, Process, arrivals, ne_eq, ht, not_false_eq_true,
          if_true, deliver_append] at h1 h2 ⊢
        rw [h2, h1]
    | sender o => simpa [Kind.isSender] using h (.sender o) (by simp)

/-! ## `SetNext` -/

theorem SetNext_SetNext (w : Worker) (a b : Option Worker) :
    (w.SetNext a).SetNext b = w.SetNext b := by
  cases w; rfl

theorem SetNext_eq_mk (w : Worker) (b : Option Worker) : w.SetNext b = .mk w.kind b := by
  cases w; rfl

/-- C12: `SetNext` is last-write-wins.  After `w.SetNext(a)` and then
`w.SetNext(b)` the worker is as after `w.SetNext(b)` alone: its successor is
`b`, its dynamic type and members (a filter's predicate, a copier's target)
are those of `w`, it processes every record as `w` with successor `b` does,
and what it hands on goes to `b`; `a` has no part in it. -/
theorem SetNext_last_write_wins (w : Worker) (a b : Option Worker) :
    (w.SetNext a).SetNext b = w.SetNext b ∧
    ((w.SetNext a).SetNext b).next_ = b ∧
    ((w.SetNext a).SetNext b).kind = w.kind ∧
    (∀ (R : Email) (s : Outs),
      Process ((w.SetNext a).SetNext b) R s = Process (.mk w.kind b) R s) ∧
    (w.kind.isSender = false → ∀ (R : Email) (s : Outs),
      Process ((w.SetNext a).SetNext b) R s = deliver b (arrivals [w.kind] R) s) := by
  refine ⟨SetNext_SetNext w a b, ?_, ?_, ?_, ?_⟩
  · cases w; rfl
  · cases w; rfl
  · intro R s; rw [SetNext_SetNext, SetNext_eq_mk]
  · intro hk R s
    rw [SetNext_SetNext, SetNext_eq_mk]
    have := arrivals_spec b [w.kind] (by simpa using hk) R s
    simpa [chainFrom, Worker.Process] using this

theorem SetNext_last_write_wins_witness :
    (Worker.mk (.copier ['x']) none).kind.isSender = false ∧
    ∀ (R : Email) (s : Outs),
      Process (((Worker.mk (.copier ['x']) none).SetNext (some (.mk (.sender 0) none))).SetNext
          (some (.mk (.sender 1) none))) R s
        = deliver (some (.mk (.sender 1) none))
            (arrivals [(Worker.mk (.copier ['x']) none).kind] R) s :=
  ⟨rfl, (SetNext_last_write_wins (.mk (.copier ['x']) none) (some (.mk (.sender 0) none))
    (some (.mk (.sender 1) none))).2.2.2.2 rfl⟩

/-! ## Repeated stages -/

theorem Process_copiers (p : Option Worker) (t : Str) (k : Nat) :
    ∀ (R : Email) (s : Outs),
      Worker.Process (chainFrom p (List.replicate k (.copier t))) R s
        = deliver p (if R.to_ ≠ t then R :: List.replicate k ⟨R.from_, t, R.body⟩ else [R]) s := by
  induction k with
  | zero => intro R s; by_cases h : R.to_ = t <;> simp [chainFrom, h]
  | succ n ih =>
    intro R s
    have hstep : Worker.Process (chainFrom p (List.replicate (n + 1) (.copier t))) R s
        = if t ≠ R.to_ then
            Worker.Process (chainFrom p (List.replicate n (.copier t))) ⟨R.from_, t, R.body⟩
              (Worker.Process (chainFrom p (List.replicate n (.copier t))) R s)
          else Worker.Process (chainFrom p (List.replicate n (.copier t))) R s := by
      simp [List.replicate_succ, chainFrom, Worker.Process, Process]
    rw [hstep]
    by_cases h : R.to_ = t
    · have h2 : ¬ (t ≠ R.to_) := fun c => c h.symm
      rw [if_neg h2, ih R s]
      simp [h]
    · have h2 : t ≠ R.to_ := fun c => h c.symm
      rw [if_pos h2, ih R s, ih ⟨R.from_, t, R.body⟩]
      simp only [ne_eq, h, not_false_eq_true, if_true, not_true_eq_false, if_false]
      rw [← deliver_append]
      simp [List.replicate_succ']

/-- C14: `k` consecutive `Copier(t)` stages hand to what follows them, for a
record `R` whose recipient differs from `t`, exactly `k + 1` records: `R`
and then `k` times `{R.from, t, R.body}`; for a record whose recipient is `t`
they hand on `R` alone.  A sink behind them writes these records in that
order.  So `CopyTo(t).CopyTo(t)` delivers the copy twice and a single
`CopyTo(t)` once. -/
theorem repeated_CopyTo (t : Str) (k : Nat) (R : Email) :
    (∀ (p : Option Worker) (s : Outs),
      Worker.Process (chainFrom p (List.replicate k (.copier t))) R s
        = deliver p
            (if R.to_ ≠ t then R :: List.replicate k ⟨R.from_, t, R.body⟩ else [R]) s) ∧
    (if R.to_ ≠ t then R :: List.replicate k (Email.mk R.from_ t R.body) else [R]).length
      = (if R.to_ ≠ t then k + 1 else 1) ∧
    (∀ (i o : Nat), ∃ next_ rest,
      ((PipelineBuilder.new i).calls
          (List.replicate k (Call.CopyTo t) ++ [Call.Send o])).Build
        = .ok (some (.mk (.reader i) next_), rest) ∧
      ∀ s : Outs, Worker.Process next_ R s
        = s.put o (serialize
            (if R.to_ ≠ t then R :: List.replicate k ⟨R.from_, t, R.body⟩ else [R]))) ∧
    (R.to_ ≠ t → ∀ (p : Option Worker) (s : Outs),
      Process (.mk (.copier t) (some (.mk (.copier t) p))) R s
          = deliver p [R, ⟨R.from_, t, R.body⟩, ⟨R.from_, t, R.body⟩] s ∧
      Process (.mk (.copier t) p) R s = deliver p [R, ⟨R.from_, t, R.body⟩] s) := by
  refine ⟨fun p s => Process_copiers p t k R s, ?_, ?_, ?_⟩
  · by_cases h : R.to_ = t <;> simp [h]
  · intro i o
    refine ⟨_, _, Build_calls i _, fun s => ?_⟩
    have hk : (List.replicate k (Call.CopyTo t) ++ [Call.Send o]).map Call.kind
        = List.replicate k (.copier t) ++ [.sender o] := by
      simp [Call.kind]
    have hs : chainFrom none [Kind.sender o] = some (.mk (.sender o) none) := rfl
    rw [hk, chainFrom_append, Process_copiers, hs, deliver_sender]
  · intro h p s
    have h2 := Process_copiers p t 2 R s
    have h1 := Process_copiers p t 1 R s
    simp only [ne_eq, h, not_false_eq_true, if_true] at h1 h2
    exact ⟨h2, h1⟩

theorem repeated_CopyTo_witness :
    (Email.mk ['a'] ['b'] ['c']).to_ ≠ ['x'] ∧
    ∀ (p : Option Worker) (s : Outs),
      Process (.mk (.copier ['x']) (some (.mk (.copier ['x']) p))) ⟨['a'], ['b'], ['c']⟩ s
          = deliver p [⟨['a'], ['b'], ['c']⟩, ⟨['a'], ['x'], ['c']⟩, ⟨['a'], ['x'], ['c']⟩] s ∧
      Process (.mk (.copier ['x']) p) ⟨['a'], ['b'], ['c']⟩ s
          = deliver p [⟨['a'], ['b'], ['c']⟩, ⟨['a'], ['x'], ['c']⟩] s :=
  ⟨by decide, (repeated_CopyTo ['x'] 2 ⟨['a'], ['b'], ['c']⟩).2.2.2 (by decide)⟩

/-- C15: two filters in a row act as one filter by the conjunction of their
predicates, in either order: each of `FilterBy(p).FilterBy(q)`,
`FilterBy(q).FilterBy(p)` and `FilterBy(r)` with `r(R) = p(R) && q(R)` hands
to the stages behind it the record when both predicates hold and nothing
otherwise, and the three chains built with the same further calls run alike
in every state of the streams. -/
theorem filters_compose_and_commute (p q : Email → Bool) :
    (∀ (tail : Option Worker) (R : Email) (s : Outs),
      Process (.mk (.filter p) (some (.mk (.filter q) tail))) R s
        = deliver tail (if p R && q R then [R] else []) s ∧
      Process (.mk (.filter q) (some (.mk (.filter p) tail))) R s
        = deliver tail (if p R && q R then [R] else []) s ∧
      Process (.mk (.filter fun R => p R && q R) tail) R s
        = deliver tail (if p R && q R then [R] else []) s) ∧
    (∀ (i : Nat) (tail : List Call) (W : World),
      ∃ pq qp r r1 r2 r3,
        ((PipelineBuilder.new i).calls (Call.FilterBy p :: Call.FilterBy q :: tail)).Build
          = .ok (some pq, r1) ∧
        ((PipelineBuilder.new i).calls (Call.FilterBy q :: Call.FilterBy p :: tail)).Build
          = .ok (some qp, r2) ∧
        ((PipelineBuilder.new i).calls (Call.FilterBy (fun R => p R && q R) :: tail)).Build
          = .ok (some r, r3) ∧
        Run pq W = Run qp W ∧ Run pq W = Run r W) := by
  have key : ∀ (tail : Option Worker) (R : Email) (s : Outs),
      Process (.mk (.filter p) (some (.mk (.filter q) tail))) R s
        = deliver tail (if p R && q R then [R] else []) s ∧
      Process (.mk (.filter q) (some (.mk (.filter p) tail))) R s
        = deliver tail (if p R && q R then [R] else []) s ∧
      Process (.mk (.filter fun R => p R && q R) tail) R s
        = deliver tail (if p R && q R then [R] else []) s := by
    intro tail R s
    cases hp : p R <;> cases hq : q R <;> simp [Process, Worker.Process, hp, hq]
  refine ⟨key, ?_⟩
  intro i tail W
  refine ⟨_, _, _, _, _, _, Build_calls i _, Build_calls i _, Build_calls i _, ?_, ?_⟩
  · apply Run_reader_congr
    intro e s
    have := key (chainFrom none (tail.map Call.kind)) e s
    simp only [List.map_cons, Call.kind, chainFrom, Worker.Process]
    rw [this.1, this.2.1]
  · apply Run_reader_congr
    intro e s
    have := key (chainFrom none (tail.map Call.kind)) e s
    simp only [List.map_cons, Call.kind, chainFrom, Worker.Process]
    rw [this.1, this.2.2]

/-! ## `Build` on a builder that has been built -/

theorem link_front (front : List (Option Worker)) (pre : List Worker) :
    ∀ (p : Option Worker) (suffix : List (Option Worker)),
      PipelineBuilder.link (front.length + pre.length) (front ++ (pre.map some ++ p :: suffix))
        = PipelineBuilder.link front.length
            (front ++ (relink p pre :: (List.replicate pre.length none ++ suffix))) := by
  induction pre using List.reverseRecOn with
  | nil => intro p suffix; rfl
  | append_singleton pre w ih =>
    intro p suffix
    have hlen : front.length + (pre ++ [w]).length = (front ++ pre.map some).length + 1 := by
      simp; omega
    have hshape : front ++ (List.map some (pre ++ [w]) ++ p :: suffix)
        = (front ++ pre.map some) ++ some w :: p :: suffix := by simp
    rw [hlen, hshape, PipelineBuilder.link, getElem?_length_append,
      getElem?_length_succ_append]
    simp only [set_length_append, set_length_succ_append]
    have hlen2 : (front ++ pre.map some).length = front.length + pre.length := by simp
    have hshape2 : (front ++ pre.map some) ++ some (w.SetNext p) :: none :: suffix
        = front ++ (pre.map some ++ some (w.SetNext p) :: (none :: suffix)) := by simp
    rw [hlen2, hshape2, ih, relink_append]
    simp [List.replicate_succ', List.append_assoc]

theorem link_null (l : List (Option Worker)) (b : Option Worker)
    (rest : List (Option Worker)) :
    PipelineBuilder.link (l.length + 1) (l ++ none :: b :: rest) = .error .null_deref := by
  rw [PipelineBuilder.link, getElem?_length_append]

theorem Build_of_link_error (b : PipelineBuilder) (f : Fault) (hne : b.workers ≠ [])
    (h : PipelineBuilder.link (b.workers.length - 1) b.workers = .error f) :
    b.Build = .error f := by
  cases b with
  | mk ws =>
    cases ws with
    | nil => exact absurd rfl hne
    | cons x xs =>
      simp only [PipelineBuilder.Build]
      simp only at h
      rw [h]

/-- A builder that holds null pointers only, two of them at least. -/
theorem Build_nulls (n : Nat) :
    PipelineBuilder.Build ⟨List.replicate (n + 2) none⟩ = .error .null_deref := by
  apply Build_of_link_error
  · simp [List.replicate_succ]
  · have e : List.replicate (n + 2) (none : Option Worker)
        = List.replicate n none ++ none :: none :: [] := by
      rw [List.replicate_succ', List.replicate_succ']; simp
    have hl : (List.replicate n (none : Option Worker) ++ none :: none :: []).length - 1
        = (List.replicate n (none : Option Worker)).length + 1 := by simp
    simp only [e, hl]
    exact link_null _ _ _

/-- A builder that holds null pointers followed by stages appended later. -/
theorem Build_nulls_then_stages (n : Nat) (cs2 : List Call) (h : cs2 ≠ []) :
    (PipelineBuilder.calls ⟨List.replicate (n + 1) none⟩ cs2).Build = .error .null_deref := by
  have hw := calls_workers cs2 ⟨List.replicate (n + 1) none⟩
  simp only at hw
  obtain ⟨mid, c, rfl⟩ : ∃ mid c, cs2 = mid ++ [c] := by
    rcases List.eq_nil_or_concat cs2 with h2 | ⟨mid, c, h2⟩
    · exact absurd h2 h
    · exact ⟨mid, c, by simpa using h2⟩
  have e : List.replicate (n + 1) (none : Option Worker)
        ++ List.map (fun c => some (Worker.mk c.kind none)) (mid ++ [c])
      = (List.replicate n none ++ [none])
        ++ ((mid.map fun (d : Call) => Worker.mk d.kind none).map some ++ some (Worker.mk c.kind none) :: []) := by
    rw [List.replicate_succ']; simp
  apply Build_of_link_error
  · rw [hw]; simp [List.replicate_succ]
  · rw [hw, e]
    have hl : ((List.replicate n (none : Option Worker) ++ [none])
        ++ ((mid.map fun (d : Call) => Worker.mk d.kind none).map some
          ++ some (Worker.mk c.kind none) :: [])).length - 1
        = (List.replicate n (none : Option Worker) ++ [none]).length
          + (mid.map fun (d : Call) => Worker.mk d.kind none).length := by
      simp; omega
    rw [hl, link_front]
    have e2 : (List.replicate n (none : Option Worker) ++ [none]).length
        = (List.replicate n (none : Option Worker)).length + 1 := by simp
    have e3 : ∀ (x : Option Worker) (ys : List (Option Worker)),
        (List.replicate n (none : Option Worker) ++ [none]) ++ (x :: ys)
          = List.replicate n none ++ none :: x :: ys := by
      intro x ys; simp
    rw [e2, e3]
    exact link_null _ _ _

/-- C13, as stated, fails: the builder that holds the source alone is built
without fault, and a second `Build()` on it, with nothing appended in
between, does not fail either: the loop has no step to take and the null
pointer left in the vector is returned. -/
theorem second_Build_of_source_alone_does_not_fail :
    (PipelineBuilder.new 0).Build = .ok (some (.mk (.reader 0) none), ⟨[none]⟩) ∧
    PipelineBuilder.Build ⟨[none]⟩ = .ok (none, ⟨[none]⟩) ∧
    ¬ ∃ f, PipelineBuilder.Build ⟨[none]⟩ = .error f := by
  refine ⟨rfl, rfl, ?_⟩
  rintro ⟨f, hf⟩
  have h : PipelineBuilder.Build ⟨[none]⟩ = .ok (none, ⟨[none]⟩) := rfl
  rw [h] at hf
  cases hf

/-- C13, amended: `Build()` on a builder made by the constructor and appending
calls leaves the builder with one null pointer for each stage it held and
with none of the stages.  A second `Build()`, with or without appending calls
in between, never returns a chain: it dereferences a null pointer when the
builder held more than the source or a stage was appended in between, and it
returns the null pointer, without failing, when the builder held the source
alone and nothing was appended. -/
theorem second_Build_returns_no_chain (i : Nat) (cs cs2 : List Call) :
    ∃ head, ((PipelineBuilder.new i).calls cs).Build
        = .ok (some head, ⟨List.replicate (cs.length + 1) none⟩) ∧
      (∀ chain rest,
        (PipelineBuilder.calls ⟨List.replicate (cs.length + 1) none⟩ cs2).Build
          ≠ .ok (some chain, rest)) ∧
      (cs = [] → cs2 = [] →
        (PipelineBuilder.calls ⟨List.replicate (cs.length + 1) none⟩ cs2).Build
          = .ok (none, ⟨[none]⟩)) ∧
      (cs ≠ [] ∨ cs2 ≠ [] →
        (PipelineBuilder.calls ⟨List.replicate (cs.length + 1) none⟩ cs2).Build
          = .error .null_deref) := by
  have hfault : cs ≠ [] ∨ cs2 ≠ [] →
      (PipelineBuilder.calls ⟨List.replicate (cs.length + 1) none⟩ cs2).Build
        = .error .null_deref := by
    intro h
    by_cases h2 : cs2 = []
    · have h1 : cs ≠ [] := by
        rcases h with h | h
        · exact h
        · exact absurd h2 h
      obtain ⟨n, hn⟩ : ∃ n, cs.length = n + 1 :=
        ⟨cs.length - 1, by have := List.length_pos.mpr h1; omega⟩
      rw [h2, hn]
      exact Build_nulls n
    · exact Build_nulls_then_stages cs.length cs2 h2
  have hnull : cs = [] → cs2 = [] →
      (PipelineBuilder.calls ⟨List.replicate (cs.length + 1) none⟩ cs2).Build
        = .ok (none, ⟨[none]⟩) := by
    intro h1 h2
    rw [h1, h2]
    rfl
  refine ⟨_, Build_calls i cs, ?_, hnull, hfault⟩
  intro chain rest hok
  by_cases h : cs = [] ∧ cs2 = []
  · rw [hnull h.1 h.2] at hok
    cases hok
  · have h3 : cs ≠ [] ∨ cs2 ≠ [] := by
      by_cases h1 : cs = []
      · exact Or.inr fun h2 => h ⟨h1, h2⟩
      · exact Or.inl h1
    rw [hfault h3] at hok
    cases hok

theorem second_Build_returns_no_chain_witness :
    (Sample.calls ≠ [] ∨ ([Call.Send 0] : List Call) ≠ []) ∧
    (PipelineBuilder.calls ⟨List.replicate (Sample.calls.length + 1) none⟩ [Call.Send 0]).Build
      = .error .null_deref :=
  ⟨Or.inr (List.cons_ne_nil _ _),
    match second_Build_returns_no_chain 0 Sample.calls [Call.Send 0] with
    | ⟨_, _, _, _, h⟩ => h (Or.inr (List.cons_ne_nil _ _))⟩

/-! ## Where the records of the output come from -/

theorem arrivals_provenance (ks : List Kind) :
    ∀ (e r : Email), r ∈ arrivals ks e →
      r.from_ = e.from_ ∧ r.body = e.body ∧ (r.to_ = e.to_ ∨ Kind.copier r.to_ ∈ ks) := by
  induction ks with
  | nil =>
    intro e r hr
    have : r = e := by simpa [arrivals] using hr
    subst this
    exact ⟨rfl, rfl, Or.inl rfl⟩
  | cons k ks ih =>
    intro e r hr
    have lift : ∀ x : Email, r ∈ arrivals ks x →
        r.from_ = x.from_ ∧ r.body = x.body ∧ (r.to_ = x.to_ ∨ Kind.copier r.to_ ∈ k :: ks) := by
      intro x hx
      obtain ⟨h1, h2, h3⟩ := ih x r hx
      exact ⟨h1, h2, h3.imp id (List.mem_cons_of_mem _)⟩
    cases k with
    | base => exact lift e (by simpa [arrivals] using hr)
    | reader i => exact lift e (by simpa [arrivals] using hr)
    | filter f =>
      by_cases hf : f e = true
      · exact lift e (by simpa [arrivals, hf] using hr)
      · simp [arrivals, hf] at hr
    | copier t =>
      simp only [arrivals, List.mem_append] at hr
      rcases hr with hr | hr
      · exact lift e hr
      · by_cases ht : t = e.to_
        · simp [ht] at hr
        · simp only [ne_eq, ht, not_false_eq_true, if_true] at hr
          obtain ⟨h1, h2, h3⟩ := ih _ r hr
          refine ⟨h1, h2, Or.inr ?_⟩
          rcases h3 with h3 | h3
          · simp only at h3; rw [h3]; exact List.mem_cons_self _ _
          · exact List.mem_cons_of_mem _ h3
    | sender o => simp [arrivals] at hr

theorem arrivals_length (ks : List Kind) :
    ∀ e : Email, (arrivals ks e).length ≤ 2 ^ ks.countP Kind.isCopier := by
  induction ks with
  | nil => intro e; simp [arrivals]
  | cons k ks ih =>
    intro e
    cases k with
    | base => simpa [arrivals, Kind.isCopier] using ih e
    | reader i => simpa [arrivals, Kind.isCopier] using ih e
    | filter f =>
      by_cases hf : f e = true
      · simpa [arrivals, hf, Kind.isCopier] using ih e
      · simp [arrivals, hf]
    | copier t =>
      have h1 := ih e
      have h2 := ih ⟨e.from_, t, e.body⟩
      have hc : List.countP Kind.isCopier (Kind.copier t :: ks)
          = List.countP Kind.isCopier ks + 1 := by
        simp [List.countP_cons, Kind.isCopier]
      rw [hc, pow_succ]
      by_cases ht : t = e.to_
      · simp only [arrivals, ne_eq, ht, not_true_eq_false, if_false, List.append_nil]
        omega
      · simp only [arrivals, ne_eq, ht, not_false_eq_true, if_true, List.length_append]
        omega
    | sender o => simp [arrivals]

theorem copier_of_calls (cs : List Call) (t : Str) (h : Kind.copier t ∈ cs.map Call.kind) :
    Call.CopyTo t ∈ cs := by
  obtain ⟨c, hc, hk⟩ := List.mem_map.mp h
  cases c with
  | FilterBy f => simp [Call.kind] at hk
  | CopyTo u =>
    have : u = t := by simpa [Call.kind] using hk
    rw [← this]; exact hc
  | Send o => simp [Call.kind] at hk

theorem countP_copier_of_calls (cs : List Call) :
    (cs.map Call.kind).countP Kind.isCopier = cs.countP Call.isCopyTo := by
  induction cs with
  | nil => rfl
  | cons c cs ih =>
    cases c <;> simp [List.countP_cons, Call.kind, Kind.isCopier, Call.isCopyTo, ih]

theorem deliver_arrivals (p : Option Worker) (ks : List Kind)
    (h : ∀ k ∈ ks, k.isSender = false) (recs : List Email) :
    ∀ s : Outs, deliver (chainFrom p ks) recs s
      = deliver p (recs.map (arrivals ks)).flatten s := by
  induction recs with
  | nil => intro s; rfl
  | cons r rs ih =>
    intro s
    rw [deliver_cons, ih, arrivals_spec p ks h]
    simp [deliver_append]

theorem flatten_length_le (f : Email → List Email) (B : Nat) (hB : ∀ e, (f e).length ≤ B)
    (recs : List Email) : (recs.map f).flatten.length ≤ recs.length * B := by
  induction recs with
  | nil => simp
  | cons r rs ih =>
    have := hB r
    simp only [List.map_cons, List.flatten_cons, List.length_append, List.length_cons]
    rw [Nat.add_mul]
    omega

/-- C16: in a chain of filters and copiers, in any order, followed by a sink,
run on the text of well-formed records, the sink receives for each input
record `R`, in input order, the records `arrivals` of `R`, and writes them.
Each of them has the sender and the body of `R`, and its recipient is that of
`R` or the target of a `CopyTo` of the chain; one input record gives at most
`2 ^ c` of them, `c` being the number of `CopyTo` calls. -/
theorem provenance (i o : Nat) (cs : List Call) (recs : List Email) (W : World)
    (hcs : ∀ c ∈ cs, c.isSend = false) (hwf : WellFormed recs)
    (hin : W.ins i = IStream.ofString (serialize recs)) :
    ∃ next_ rest,
      ((PipelineBuilder.new i).calls (cs ++ [Call.Send o])).Build
        = .ok (some (.mk (.reader i) next_), rest) ∧
      (∀ (R : Email) (s : Outs),
        Worker.Process next_ R s
          = deliver (some (.mk (.sender o) none)) (arrivals (cs.map Call.kind) R) s) ∧
      Run (.mk (.reader i) next_) W
        = some ⟨none, ⟨Function.update W.ins i ⟨[], true, true⟩,
            W.outs.put o (serialize (recs.map (arrivals (cs.map Call.kind))).flatten)⟩⟩ ∧
      (∀ r ∈ (recs.map (arrivals (cs.map Call.kind))).flatten,
        ∃ R ∈ recs, r.from_ = R.from_ ∧ r.body = R.body ∧
          (r.to_ = R.to_ ∨ Call.CopyTo r.to_ ∈ cs)) ∧
      (∀ R : Email, (arrivals (cs.map Call.kind) R).length ≤ 2 ^ cs.countP Call.isCopyTo) ∧
      (recs.map (arrivals (cs.map Call.kind))).flatten.length
        ≤ recs.length * 2 ^ cs.countP Call.isCopyTo := by
  have hks := no_sender_of_no_send cs hcs
  have hkinds : (cs ++ [Call.Send o]).map Call.kind = cs.map Call.kind ++ [Kind.sender o] := by
    simp [Call.kind]
  have hsink : chainFrom none [Kind.sender o] = some (.mk (.sender o) none) := rfl
  have hlen : ∀ R : Email,
      (arrivals (cs.map Call.kind) R).length ≤ 2 ^ cs.countP Call.isCopyTo := by
    intro R
    rw [← countP_copier_of_calls]
    exact arrivals_length _ R
  refine ⟨_, _, Build_calls i _, ?_, ?_, ?_, hlen, flatten_length_le _ _ hlen recs⟩
  · intro R s
    rw [hkinds, chainFrom_append, hsink, arrivals_spec _ _ hks]
  · rw [Run_reader_serialize i _ W recs hwf hin, hkinds, chainFrom_append, hsink,
      deliver_arrivals _ _ hks, deliver_sender]
  · intro r hr
    obtain ⟨l, hl, hrl⟩ := List.mem_flatten.mp hr
    obtain ⟨R, hR, rfl⟩ := List.mem_map.mp hl
    obtain ⟨h1, h2, h3⟩ := arrivals_provenance _ R r hrl
    exact ⟨R, hR, h1, h2, h3.imp id (copier_of_calls cs _)⟩

theorem provenance_witness :
    (∀ c ∈ Sample.calls, c.isSend = false) ∧ WellFormed Sample.records ∧
    Sample.world.ins 0 = IStream.ofString (serialize Sample.records) ∧
    ∃ next_ rest,
      ((PipelineBuilder.new 0).calls (Sample.calls ++ [Call.Send 0])).Build
        = .ok (some (.mk (.reader 0) next_), rest) ∧
      Run (.mk (.reader 0) next_) Sample.world
        = some ⟨none, ⟨Function.update Sample.world.ins 0 ⟨[], true, true⟩,
            Sample.world.outs.put 0
              (serialize (Sample.records.map (arrivals (Sample.calls.map Call.kind))).flatten)⟩⟩ :=
  ⟨by decide, by decide, rfl,
    match provenance 0 0 Sample.calls Sample.records Sample.world (by decide) (by decide) rfl with
    | ⟨next_, rest, hb, _, hrun, _⟩ => ⟨next_, rest, hb, hrun⟩⟩
